import Mathlib

/-!
# Verification of the Ragnetic RAG evidence pipeline

A shallow embedding, in Lean 4, of the pure core of the Ragnetic backend
(`backend/app/services/{context,retrieval,faithfulness,citations,query_expansion}.py`
and `backend/app/ingestion/chunking.py`), together with proofs and refutations
of the specified properties.

Conventions of the embedding:
* Python strings are `Str := List Char`; only ASCII behaviour of
  `str.lower`, `\s`, `\w` and `\d` is modelled.
* Python `float` arithmetic is idealised as exact rational arithmetic (`ℚ`);
  IEEE-754 rounding is outside the model.
* Python `dict` (insertion ordered) is modelled by association lists that
  update in place and append fresh keys.
* I/O-performing collaborators (vector store, embedding service, LLM) enter as
  explicit function/`Except` parameters; a raised exception is `Except.error`.
-/

/-- Python strings, as lists of characters. -/
abbrev Str := List Char

/-- The characters Python's `str.strip()` and the regex class `\s` treat as
whitespace (ASCII fragment). -/
def pyIsSpace (c : Char) : Bool :=
  c == ' ' || c == '\t' || c == '\n' || c == '\r' || c == '\x0b' || c == '\x0c'

/-- Membership in the regex class `[A-Za-z0-9_]` used by every `TOKEN_RE`. -/
def isWordChar (c : Char) : Bool :=
  (decide ('a' ≤ c) && decide (c ≤ 'z')) || (decide ('A' ≤ c) && decide (c ≤ 'Z')) ||
    (decide ('0' ≤ c) && decide (c ≤ '9')) || c == '_'

/-- Membership in the regex class `\d` (ASCII). -/
def isDigitChar (c : Char) : Bool :=
  decide ('0' ≤ c) && decide (c ≤ '9')

/-- ASCII fragment of Python's `str.lower` on one character. -/
def lowerChar (c : Char) : Char :=
  if decide ('A' ≤ c) && decide (c ≤ 'Z') then Char.ofNat (c.toNat + 32) else c

/-- ASCII fragment of Python's `str.lower`. -/
def lowerStr (s : Str) : Str := s.map lowerChar

/-- Python's `str.lstrip()`. -/
def stripLeft (s : Str) : Str := s.dropWhile pyIsSpace

/-- Python's `str.strip()`. -/
def pyStrip (s : Str) : Str :=
  ((s.dropWhile pyIsSpace).reverse.dropWhile pyIsSpace).reverse

/-- Helper for `findTokens`: accumulates the current `[A-Za-z0-9_]+` run
(reversed) while scanning. -/
def tokenRunsAux : Str → Str → List Str
  | [], acc => if acc.isEmpty then [] else [acc.reverse]
  | c :: cs, acc =>
    if isWordChar c then tokenRunsAux cs (c :: acc)
    else if acc.isEmpty then tokenRunsAux cs []
    else acc.reverse :: tokenRunsAux cs []

/-- `TOKEN_RE.findall`: the maximal runs of `[A-Za-z0-9_]` characters, in
order. -/
def findTokens (s : Str) : List Str := tokenRunsAux s []

/-- Python's `needle in haystack` on strings (substring containment). -/
def isSub : Str → Str → Bool
  | n, [] => n.isEmpty
  | n, c :: cs => List.isPrefixOf n (c :: cs) || isSub n cs

/-- `sep.join(parts)`. -/
def joinSep (sep : Str) : List Str → Str
  | [] => []
  | [x] => x
  | x :: xs => x ++ sep ++ joinSep sep xs

/-- Decimal rendering of a natural number, as Python's `str(n)` /
f-string interpolation of an `int`. -/
def natToStr (n : ℕ) : Str := Nat.toDigits 10 n

/-- Numeric value of a string of decimal digits, as Python's `int(s)`. -/
def digitsVal (ds : Str) : ℕ :=
  ds.foldl (fun acc c => 10 * acc + (c.toNat - '0'.toNat)) 0

/-- Leading run of `\s` characters: its length and the remainder. -/
def spanSpaces : Str → ℕ × Str
  | [] => (0, [])
  | c :: cs =>
    if pyIsSpace c then
      let (n, r) := spanSpaces cs
      (n + 1, r)
    else (0, c :: cs)

/-- Leading run of `\d` characters and the remainder. -/
def spanDigits : Str → Str × Str
  | [] => ([], [])
  | c :: cs =>
    if isDigitChar c then
      let (ds, r) := spanDigits cs
      (c :: ds, r)
    else ([], c :: cs)

/-- Case-insensitive literal match: drops `lit` (already lower-case) from the
front of `s`, comparing lower-cased. -/
def dropLitCi : Str → Str → Option Str
  | [], s => some s
  | _ :: _, [] => none
  | l :: ls, c :: cs => if lowerChar c == l then dropLitCi ls cs else none

namespace Citations

/-- A retrieval source as the chat flow passes it around: a Python dict with
`snippet`, `score` and `metadata` keys. -/
structure Source where
  snippet : Str := []
  score : ℚ := 0
  metadata : List (Str × Str) := []
deriving DecidableEq, Inhabited, Repr

/-- `metadata.get(key)`. Metadata values are modelled as strings (the only
shape `source_name` accepts). -/
def mget (m : List (Str × Str)) (k : Str) : Option Str := m.lookup k

/-- Python's `a or b` on optional strings: `a` when truthy (present and
non-empty), else `b`. -/
def pyOrS (a b : Option Str) : Option Str :=
  match a with
  | Option.none => b
  | some s => if s.isEmpty then b else some s

/-- `source_name(source, index)` from `citations.py`: the first truthy of
`metadata["source"|"filename"|"title"]` when it strips to something non-empty,
else `"Source {index+1}"`. -/
def source_name (source : Source) (index : ℕ) : Str :=
  let name := pyOrS (mget source.metadata ("source").toList)
    (pyOrS (mget source.metadata ("filename").toList) (mget source.metadata ("title").toList))
  match name with
  | some s => if (pyStrip s).isEmpty then ("Source ").toList ++ natToStr (index + 1) else pyStrip s
  | Option.none => ("Source ").toList ++ natToStr (index + 1)

/-- One attempted match of `CITATION_RE = \[Source\s+(\d+)\]` (IGNORECASE) at
the head of `s`: on success, the captured number and the match length. -/
def matchCitationAt (s : Str) : Option (ℕ × ℕ) :=
  match dropLitCi (("[source").toList) s with
  | Option.none => Option.none
  | some r1 =>
    let (k, r2) := spanSpaces r1
    if k == 0 then Option.none
    else
      let (ds, r3) := spanDigits r2
      if ds.isEmpty then Option.none
      else
        match r3 with
        | ']' :: _ => some (digitsVal ds, 7 + k + ds.length + 1)
        | _ => Option.none

/-- `CITATION_RE.search(s)` is non-empty: some position starts a
`[Source N]` marker. -/
def searchCitation : Str → Bool
  | [] => false
  | c :: cs => (matchCitationAt (c :: cs)).isSome || searchCitation cs

/-- `has_citation(answer)` from `citations.py`. -/
def has_citation (answer : Str) : Bool := searchCitation answer

/-- `CITATION_RE.finditer`: the captured numbers of all (non-overlapping,
leftmost) matches. The first argument counts characters of a found match that
remain to be skipped; matches never overlap because `[` occurs only at a
match's first character. -/
def scanCitations : ℕ → Str → List ℕ
  | _, [] => []
  | n + 1, _ :: cs => scanCitations n cs
  | 0, c :: cs =>
    match matchCitationAt (c :: cs) with
    | some (v, len) => v :: scanCitations (len - 1) cs
    | Option.none => scanCitations 0 cs

/-- Insert into a sorted, duplicate-free list of naturals; folding it models
Python's `sorted(set(...))`. -/
def insertSortedNat (n : ℕ) : List ℕ → List ℕ
  | [] => [n]
  | m :: ms =>
    if n < m then n :: m :: ms
    else if n == m then m :: ms
    else m :: insertSortedNat n ms

/-- `citation_indices(answer, sources)` from `citations.py`: the sorted set of
0-based indices `int(N)-1` of `[Source N]` markers with `0 <= idx < len(sources)`. -/
def citation_indices (answer : Str) (sources : List Source) : List ℕ :=
  let kept := (scanCitations 0 answer).filterMap
    (fun n => if 1 ≤ n ∧ n ≤ sources.length then some (n - 1) else Option.none)
  kept.foldl (fun acc n => insertSortedNat n acc) []

/-- `enforce_citation_format(answer, sources, enabled)` from `citations.py`. -/
def enforce_citation_format (answer : Str) (sources : List Source)
    (enabled : Bool := true) : Str :=
  let normalized := pyStrip answer
  if !enabled || sources.isEmpty then normalized
  else if has_citation normalized then normalized
  else
    let refs := joinSep ((", ").toList)
      ((List.range (min sources.length 3)).map
        (fun i => ("[Source ").toList ++ natToStr (i + 1) ++ ("]").toList))
    pyStrip (normalized ++ ("\n\nCitations: ").toList ++ refs)

/-- Appends `v` to the list stored under `k` (Python `grouped[name].append(idx)`). -/
def alAppend (k : Str) (v : ℕ) : List (Str × List ℕ) → List (Str × List ℕ)
  | [] => []
  | (k', vs) :: rest =>
    if k' = k then (k', vs ++ [v]) :: rest else (k', vs) :: alAppend k v rest

/-- The `for idx in used` grouping loop of `append_citation_legend`. -/
def legendGroups (sources : List Source) (max_groups : ℕ) :
    List ℕ → List (Str × List ℕ) × List Str → List (Str × List ℕ) × List Str
  | [], st => st
  | idx :: rest, (grouped, order) =>
    let name := source_name (sources.getD idx {}) idx
    if (grouped.lookup name).isSome then
      legendGroups sources max_groups rest (alAppend name idx grouped, order)
    else if max_groups ≤ order.length then
      legendGroups sources max_groups rest (grouped, order)
    else
      legendGroups sources max_groups rest
        (alAppend name idx (grouped ++ [(name, [])]), order ++ [name])

/-- `append_citation_legend(answer, sources, legend_header, max_items)` from
`citations.py`. -/
def append_citation_legend (answer : Str) (sources : List Source)
    (legend_header : Str := ("Source references").toList) (max_items : ℕ := 8) : Str :=
  let normalized := pyStrip answer
  if normalized.isEmpty || sources.isEmpty then normalized
  else
    let header_line := legend_header ++ (":").toList
    if isSub (lowerStr header_line) (lowerStr normalized) then normalized
    else
      let used := citation_indices normalized sources
      if used.isEmpty then normalized
      else
        let (grouped, order) := legendGroups sources (max 1 max_items) used ([], [])
        let lines := header_line :: order.map (fun name =>
          ("[Source ").toList ++
            joinSep ((", ").toList) ((grouped.lookup name).getD [] |>.map (fun i => natToStr (i + 1))) ++
            ("] ").toList ++ name)
        normalized ++ ("\n\n").toList ++ joinSep (("\n").toList) lines

end Citations

/-! ### Generic facts about Python string stripping -/

theorem dropWhile_head? {α : Type} (p : α → Bool) (l : List α) :
    ∀ c, (l.dropWhile p).head? = some c → p c = false := by
  induction l with
  | nil => intro c h; simp [List.dropWhile] at h
  | cons a t ih =>
    intro c h
    rw [List.dropWhile_cons] at h
    by_cases hp : p a = true
    · exact ih c (by simpa [hp] using h)
    · rw [if_neg hp] at h
      simp only [List.head?_cons, Option.some.injEq] at h
      subst h
      simpa using hp

theorem pyStrip_head? (s : Str) : ∀ c, (pyStrip s).head? = some c → pyIsSpace c = false := by
  intro c h
  unfold pyStrip at h
  set a := s.dropWhile pyIsSpace with ha
  set b := a.reverse.dropWhile pyIsSpace with hb
  have hbne : b.reverse ≠ [] := by
    intro hcon; rw [hcon] at h; simp at h
  have hbne' : b ≠ [] := fun hc => hbne (by rw [hc]; rfl)
  have hc_head : b.reverse.head hbne = c := by
    rw [List.head?_eq_head hbne] at h; exact (Option.some.injEq _ _).mp h
  have h1 : b.reverse.head hbne = b.getLast hbne' := List.head_reverse hbne
  have hsuf : b <:+ a.reverse := List.dropWhile_suffix pyIsSpace
  have hrne : a.reverse ≠ [] := by
    intro hcon
    rw [hcon] at hsuf
    exact hbne' (List.suffix_nil.mp hsuf)
  have hane : a ≠ [] := fun hc => hrne (by rw [hc]; rfl)
  have h2 : b.getLast hbne' = a.reverse.getLast hrne := List.IsSuffix.getLast hsuf hbne'
  have h3 : a.reverse.getLast hrne = a.head hane := List.getLast_reverse hrne
  have h4 : pyIsSpace (a.head hane) = false := by
    apply dropWhile_head? pyIsSpace s
    show a.head? = some (a.head hane)
    exact List.head?_eq_head hane
  rw [← hc_head, h1, h2, h3]
  exact h4

theorem pyStrip_getLast? (s : Str) : ∀ c, (pyStrip s).getLast? = some c → pyIsSpace c = false := by
  intro c h
  unfold pyStrip at h
  set a := s.dropWhile pyIsSpace with ha
  set b := a.reverse.dropWhile pyIsSpace with hb
  have hbne : b.reverse ≠ [] := by
    intro hcon; rw [hcon] at h; simp at h
  have hbne' : b ≠ [] := fun hc => hbne (by rw [hc]; rfl)
  have hlast : b.reverse.getLast hbne = c := by
    rw [List.getLast?_eq_getLast _ hbne] at h
    exact (Option.some.injEq _ _).mp h
  have h1 : b.reverse.getLast hbne = b.head hbne' := List.getLast_reverse hbne
  have h4 : pyIsSpace (b.head hbne') = false := by
    apply dropWhile_head? pyIsSpace a.reverse
    show b.head? = some (b.head hbne')
    exact List.head?_eq_head hbne'
  rw [← hlast, h1]
  exact h4

theorem pyStrip_eq_self {s : Str}
    (h1 : ∀ c, s.head? = some c → pyIsSpace c = false)
    (h2 : ∀ c, s.getLast? = some c → pyIsSpace c = false) : pyStrip s = s := by
  cases s with
  | nil => rfl
  | cons a t =>
    have ha : pyIsSpace a = false := h1 a rfl
    have hL : (a :: t).dropWhile pyIsSpace = a :: t := by
      rw [List.dropWhile_cons]; simp [ha]
    unfold pyStrip
    rw [hL]
    cases hrev : (a :: t).reverse with
    | nil => simp at hrev
    | cons d r =>
      have hd : (a :: t).getLast? = some d := by
        rw [← List.head?_reverse, hrev]; rfl
      have hds : pyIsSpace d = false := h2 d hd
      have hstep : List.dropWhile pyIsSpace (d :: r) = d :: r := by
        rw [List.dropWhile_cons, hds]; simp
      rw [hstep, ← hrev, List.reverse_reverse]

theorem pyStrip_idem (s : Str) : pyStrip (pyStrip s) = pyStrip s :=
  pyStrip_eq_self (pyStrip_head? s) (pyStrip_getLast? s)

theorem pyStrip_append_eq {x y : Str} (hx : pyStrip x = x) (hx0 : x ≠ [])
    (hy : ∀ c, y.getLast? = some c → pyIsSpace c = false) (hy0 : y ≠ []) :
    pyStrip (x ++ y) = x ++ y := by
  apply pyStrip_eq_self
  · intro c h
    rw [List.head?_append] at h
    have hxh : x.head? = some (x.head hx0) := List.head?_eq_head hx0
    rw [hxh] at h
    apply pyStrip_head? x
    rw [hx, hxh]
    simpa using h
  · intro c h
    rw [List.getLast?_append] at h
    have hyl : y.getLast? = some (y.getLast hy0) := List.getLast?_eq_getLast _ hy0
    rw [hyl] at h
    apply hy
    rw [hyl]
    simpa using h

namespace Citations

theorem searchCitation_append {t : Str} (h : searchCitation t = true) :
    ∀ s : Str, searchCitation (s ++ t) = true := by
  intro s
  induction s with
  | nil => simpa using h
  | cons c cs ih =>
    have e : searchCitation ((c :: cs) ++ t)
        = ((matchCitationAt ((c :: cs) ++ t)).isSome || searchCitation (cs ++ t)) := rfl
    rw [e, ih, Bool.or_true]

end Citations

namespace Citations

theorem natToStr_two : natToStr 2 = ['2'] := by decide

theorem enforce_eq1 {answer : Str} {sources : List Source} {enabled : Bool}
    (h : (!enabled || sources.isEmpty) = true) :
    enforce_citation_format answer sources enabled = pyStrip answer := by
  unfold enforce_citation_format
  rw [if_pos h]

theorem enforce_eq2 {answer : Str} {sources : List Source} {enabled : Bool}
    (h : (!enabled || sources.isEmpty) = false) (h2 : has_citation (pyStrip answer) = true) :
    enforce_citation_format answer sources enabled = pyStrip answer := by
  unfold enforce_citation_format
  rw [if_neg (by simp [h]), if_pos h2]

theorem enforce_eq3 {answer : Str} {sources : List Source} {enabled : Bool}
    (h : (!enabled || sources.isEmpty) = false) (h2 : has_citation (pyStrip answer) = false) :
    enforce_citation_format answer sources enabled
      = pyStrip (pyStrip answer ++ ("\n\nCitations: ").toList ++
          joinSep ((", ").toList) ((List.range (min sources.length 3)).map
            (fun i => ("[Source ").toList ++ natToStr (i + 1) ++ ("]").toList))) := by
  unfold enforce_citation_format
  rw [if_neg (by simp [h]), if_neg (by simp [h2])]

theorem refs_search (k : ℕ) (hk : k = 1 ∨ k = 2 ∨ k = 3) :
    searchCitation (joinSep ((", ").toList) ((List.range k).map
      (fun i => ("[Source ").toList ++ natToStr (i + 1) ++ ("]").toList))) = true := by
  rcases hk with rfl | rfl | rfl <;> decide

theorem refs_last (k : ℕ) (hk : k = 1 ∨ k = 2 ∨ k = 3) :
    (joinSep ((", ").toList) ((List.range k).map
      (fun i => ("[Source ").toList ++ natToStr (i + 1) ++ ("]").toList))).getLast? = some ']' := by
  rcases hk with rfl | rfl | rfl <;> decide

end Citations

theorem stripLeft_pyStrip (s : Str) : (pyStrip s).dropWhile pyIsSpace = pyStrip s := by
  cases h : pyStrip s with
  | nil => rfl
  | cons a t =>
    have ha : pyIsSpace a = false := pyStrip_head? s a (by rw [h]; rfl)
    rw [List.dropWhile_cons, ha]
    simp

theorem pyStrip_of_last {s : Str} (h : ∀ c, s.getLast? = some c → pyIsSpace c = false) :
    pyStrip s = stripLeft s := by
  unfold pyStrip stripLeft
  cases ha : s.dropWhile pyIsSpace with
  | nil => simp
  | cons a t =>
    have hsne : s ≠ [] := by
      intro hcon; rw [hcon] at ha; simp [List.dropWhile] at ha
    have hsuf : (a :: t) <:+ s := ha ▸ List.dropWhile_suffix pyIsSpace
    have hlast_eq : (a :: t).getLast (by simp) = s.getLast hsne :=
      List.IsSuffix.getLast hsuf (by simp)
    have hlast_ns : pyIsSpace ((a :: t).getLast (by simp)) = false := by
      rw [hlast_eq]
      exact h _ (List.getLast?_eq_getLast s hsne)
    cases hrev : (a :: t).reverse with
    | nil => simp at hrev
    | cons d r =>
      have hd : (a :: t).getLast? = some d := by
        rw [← List.head?_reverse, hrev]; rfl
      have hds : pyIsSpace d = false := by
        have h1 := hd
        rw [List.getLast?_eq_getLast (a :: t) (by simp)] at h1
        have h2 : (a :: t).getLast (by simp) = d := by injection h1
        exact h2 ▸ hlast_ns
      have hstep : List.dropWhile pyIsSpace (d :: r) = d :: r := by
        rw [List.dropWhile_cons, hds]; simp
      rw [hstep, ← hrev, List.reverse_reverse]

namespace Citations

/-- C8: `enforce_citation_format` is idempotent, and an answer already
carrying a `[Source N]` marker comes back unchanged apart from the initial
whitespace strip. -/
theorem enforce_citation_format_idempotent (answer : Str) (sources : List Source) (enabled : Bool) :
    enforce_citation_format (enforce_citation_format answer sources enabled) sources enabled
      = enforce_citation_format answer sources enabled ∧
    (has_citation (pyStrip answer) = true →
      enforce_citation_format answer sources enabled = pyStrip answer) := by
  by_cases hE : (!enabled || sources.isEmpty) = true
  · refine ⟨?_, fun _ => enforce_eq1 hE⟩
    rw [@enforce_eq1 answer sources enabled hE, @enforce_eq1 (pyStrip answer) sources enabled hE, pyStrip_idem]
  · have hE' : (!enabled || sources.isEmpty) = false := eq_false_of_ne_true hE
    by_cases hC : has_citation (pyStrip answer) = true
    · refine ⟨?_, fun _ => enforce_eq2 hE' hC⟩
      rw [@enforce_eq2 answer sources enabled hE' hC,
        @enforce_eq2 (pyStrip answer) sources enabled hE' (by rw [pyStrip_idem]; exact hC), pyStrip_idem]
    · have hC' : has_citation (pyStrip answer) = false := eq_false_of_ne_true hC
      refine ⟨?_, fun hcon => absurd hcon hC⟩
      rw [@enforce_eq3 answer sources enabled hE' hC']
      have hsne : sources ≠ [] := by
        intro hcon
        rw [hcon] at hE'
        simp at hE'
      have hk3 : min sources.length 3 = 1 ∨ min sources.length 3 = 2 ∨ min sources.length 3 = 3 := by
        have : 1 ≤ sources.length := List.length_pos.mpr hsne
        omega
      have hsearch := refs_search (min sources.length 3) hk3
      have hlastR := refs_last (min sources.length 3) hk3
      -- the argument of the outer strip, reassociated
      have hassoc : pyStrip answer ++ ("\n\nCitations: ").toList ++
          joinSep ((", ").toList) ((List.range (min sources.length 3)).map
            (fun i => ("[Source ").toList ++ natToStr (i + 1) ++ ("]").toList))
          = pyStrip answer ++ (("\n\nCitations: ").toList ++
          joinSep ((", ").toList) ((List.range (min sources.length 3)).map
            (fun i => ("[Source ").toList ++ natToStr (i + 1) ++ ("]").toList))) :=
        List.append_assoc _ _ _
      rw [hassoc]
      -- abbreviations purely at the meta level
      generalize hrefs : joinSep ((", ").toList) ((List.range (min sources.length 3)).map
        (fun i => ("[Source ").toList ++ natToStr (i + 1) ++ ("]").toList)) = refs at hsearch hlastR ⊢
      have hmidrefs_last : ∀ c, (("\n\nCitations: ").toList ++ refs).getLast? = some c →
          pyIsSpace c = false := by
        intro c hc
        rw [List.getLast?_append, hlastR] at hc
        have hor : ∀ o : Option Char, (some ']').or o = some ']' := fun _ => rfl
        rw [hor] at hc
        have : ']' = c := by injection hc
        subst this
        decide
      have hXlast : ∀ c, (pyStrip answer ++ (("\n\nCitations: ").toList ++ refs)).getLast? = some c →
          pyIsSpace c = false := by
        intro c hc
        rw [List.getLast?_append] at hc
        rw [List.getLast?_append, hlastR] at hc
        have hor : ∀ o : Option Char, (some ']').or o = some ']' := fun _ => rfl
        rw [hor, hor] at hc
        have : ']' = c := by injection hc
        subst this
        decide
      have hRstrip : pyStrip (pyStrip answer ++ (("\n\nCitations: ").toList ++ refs))
          = stripLeft (pyStrip answer ++ (("\n\nCitations: ").toList ++ refs)) :=
        pyStrip_of_last hXlast
      have hsearchMid : searchCitation (("\n\nCitations: ").toList ++ refs) = true :=
        searchCitation_append hsearch _
      have hRcit : has_citation (pyStrip (pyStrip answer ++ (("\n\nCitations: ").toList ++ refs))) = true := by
        rw [hRstrip]
        unfold stripLeft
        rw [List.dropWhile_append]
        by_cases hN0 : ((pyStrip answer).dropWhile pyIsSpace).isEmpty = true
        · rw [if_pos hN0]
          show searchCitation (List.dropWhile pyIsSpace (("\n\nCitations: ").toList ++ refs)) = true
          rw [List.dropWhile_append]
          have hmid : (("\n\nCitations: ").toList.dropWhile pyIsSpace) = ("Citations: ").toList := by decide
          rw [hmid]
          simp only [List.isEmpty_iff]
          rw [if_neg (by simp)]
          exact searchCitation_append hsearch _
        · rw [if_neg hN0]
          exact searchCitation_append hsearchMid _
      rw [@enforce_eq2 (pyStrip (pyStrip answer ++ (("\n\nCitations: ").toList ++ refs))) sources enabled hE'
        (by rw [pyStrip_idem]; exact hRcit), pyStrip_idem]

end Citations

namespace Citations

theorem mem_insertSortedNat {x n : ℕ} : ∀ {l : List ℕ}, x ∈ insertSortedNat n l → x = n ∨ x ∈ l := by
  intro l
  induction l with
  | nil => intro h; simp [insertSortedNat] at h; exact Or.inl h
  | cons m ms ih =>
    intro h
    unfold insertSortedNat at h
    by_cases h1 : n < m
    · rw [if_pos h1] at h
      rcases List.mem_cons.mp h with h | h
      · exact Or.inl h
      · exact Or.inr h
    · rw [if_neg h1] at h
      by_cases h2 : (n == m) = true
      · rw [if_pos h2] at h
        exact Or.inr h
      · rw [if_neg h2] at h
        rcases List.mem_cons.mp h with h | h
        · exact Or.inr (h ▸ List.mem_cons_self m ms)
        · rcases ih h with h | h
          · exact Or.inl h
          · exact Or.inr (List.mem_cons_of_mem m h)

theorem mem_foldl_insertSortedNat {x : ℕ} :
    ∀ (l : List ℕ) (acc : List ℕ),
      x ∈ l.foldl (fun a n => insertSortedNat n a) acc → x ∈ acc ∨ x ∈ l := by
  intro l
  induction l with
  | nil => intro acc h; exact Or.inl h
  | cons n ns ih =>
    intro acc h
    rcases ih (insertSortedNat n acc) h with h | h
    · rcases mem_insertSortedNat h with h | h
      · exact Or.inr (h ▸ List.mem_cons_self n ns)
      · exact Or.inl h
    · exact Or.inr (List.mem_cons_of_mem n h)

/-- C10: legend entries reference only in-range source numbers, and without an
in-range marker (or with a legend header already present) the answer is
returned unchanged apart from the whitespace strip. -/
theorem append_citation_legend_in_range (answer : Str) (sources : List Source) :
    (∀ i ∈ citation_indices answer sources, i < sources.length) ∧
    (citation_indices (pyStrip answer) sources = [] →
      append_citation_legend answer sources = pyStrip answer) ∧
    (isSub (lowerStr (("Source references").toList ++ (":").toList)) (lowerStr (pyStrip answer)) = true →
      append_citation_legend answer sources = pyStrip answer) := by
  refine ⟨?_, ?_, ?_⟩
  · intro i hi
    unfold citation_indices at hi
    rcases mem_foldl_insertSortedNat _ _ hi with h | h
    · simp at h
    · rw [List.mem_filterMap] at h
      obtain ⟨n, _, hn⟩ := h
      by_cases hcond : 1 ≤ n ∧ n ≤ sources.length
      · rw [if_pos hcond] at hn
        have : n - 1 = i := by injection hn
        omega
      · rw [if_neg hcond] at hn
        exact absurd hn (by simp)
  · intro h
    simp only [append_citation_legend]
    by_cases h1 : ((pyStrip answer).isEmpty || sources.isEmpty) = true
    · rw [if_pos h1]
    · rw [if_neg h1]
      by_cases h2 : isSub (lowerStr (("Source references").toList ++ (":").toList))
          (lowerStr (pyStrip answer)) = true
      · rw [if_pos h2]
      · rw [if_neg h2, h]
        simp
  · intro h
    simp only [append_citation_legend]
    by_cases h1 : ((pyStrip answer).isEmpty || sources.isEmpty) = true
    · rw [if_pos h1]
    · rw [if_neg h1, if_pos h]

end Citations

/-! ### `SENTENCE_RE = (?<=[.!?])\s+|\n+` (shared by `context.py` and
`faithfulness.py`) -/

/-- The lookbehind class `[.!?]` of `SENTENCE_RE`. -/
def isSentEnd (c : Char) : Bool := c == '.' || c == '!' || c == '?'

/-- `SENTENCE_RE.split`. Mode 0 scans normally; mode 1 consumes a `\s+`
separator opened after `[.!?]`; mode 2 consumes a `\n+` separator. `p` is the
previously scanned character and `acc` the current piece, reversed. -/
def splitSentAux : ℕ → Option Char → Str → Str → List Str
  | _, _, [], acc => [acc.reverse]
  | 1, _, c :: cs, acc =>
    if pyIsSpace c then splitSentAux 1 (some c) cs acc
    else splitSentAux 0 (some c) cs (c :: acc)
  | 2, _, c :: cs, acc =>
    if c == '\n' then splitSentAux 2 (some c) cs acc
    else splitSentAux 0 (some c) cs (c :: acc)
  | _, p, c :: cs, acc =>
    if (p.elim false isSentEnd) && pyIsSpace c then
      acc.reverse :: splitSentAux 1 (some c) cs []
    else if c == '\n' then
      acc.reverse :: splitSentAux 2 (some c) cs []
    else splitSentAux 0 (some c) cs (c :: acc)

/-- `SENTENCE_RE.split(s)`: pieces between `(?<=[.!?])\s+` or `\n+` separators. -/
def splitSentences (s : Str) : List Str := splitSentAux 0 Option.none s []

namespace Faith

/-- The `STOPWORDS` set of `faithfulness.py`. -/
def STOPWORDS : List Str :=
  [("a").toList, ("an").toList, ("and").toList, ("are").toList, ("as").toList, ("at").toList,
    ("be").toList, ("by").toList, ("for").toList, ("from").toList, ("in").toList, ("is").toList,
    ("it").toList, ("of").toList, ("on").toList, ("or").toList, ("that").toList, ("the").toList,
    ("to").toList, ("was").toList, ("were").toList, ("with").toList]

/-- Does `\n\s*source references\s*:\s*` (IGNORECASE) match at the head of the
string?  Only the match start matters to `_clean_answer`. -/
def refHeaderAt : Str → Bool
  | '\n' :: rest =>
    let (_, r1) := spanSpaces rest
    (match dropLitCi (("source references").toList) r1 with
      | Option.none => false
      | some r2 =>
        let (_, r3) := spanSpaces r2
        match r3 with
        | ':' :: _ => true
        | _ => false)
  | _ => false

/-- `re.search(...).start()` for the `source references` marker: the first
index where `refHeaderAt` holds. -/
def findRefHeader : Str → Option ℕ
  | [] => Option.none
  | c :: cs => if refHeaderAt (c :: cs) then some 0 else (findRefHeader cs).map (· + 1)

/-- `_clean_answer(answer)` from `faithfulness.py`. -/
def _clean_answer (answer : Str) : Str :=
  let normalized := pyStrip answer
  if normalized.isEmpty then []
  else
    match findRefHeader normalized with
    | some i => pyStrip (normalized.take i)
    | Option.none => normalized

/-- `_split_claims(answer)` from `faithfulness.py`: stripped sentence pieces of
the cleaned answer with at least 8 characters. -/
def _split_claims (answer : Str) : List Str :=
  let cleaned := _clean_answer answer
  if cleaned.isEmpty then []
  else (((splitSentences cleaned).map pyStrip).filter (fun p => !p.isEmpty)).filter
    (fun claim => 8 ≤ claim.length)

/-- `_claim_tokens(claim)` from `faithfulness.py`: lower-cased word tokens of
length > 2 that are not stop-words. -/
def _claim_tokens (claim : Str) : List Str :=
  (findTokens claim).filterMap (fun token =>
    if 2 < token.length ∧ lowerStr token ∉ STOPWORDS then some (lowerStr token) else Option.none)

/-- `_source_text(sources)`: the newline-joined lower-cased non-empty stripped
snippets. -/
def _source_text (sources : List Citations.Source) : Str :=
  joinSep (("\n").toList) (sources.filterMap (fun s =>
    let sn := pyStrip s.snippet
    if sn.isEmpty then Option.none else some (lowerStr sn)))

/-- The continuation `(?:\s*,\s*\d+)*\]` of the faithfulness
`CITATION_RE = \[Source\s+\d+(?:\s*,\s*\d+)*\]`, as a character state
machine (the pattern is deterministic: no backtracking can recover a failure).
Mode 0: at a group boundary; mode 1: inside `\s*` before a comma; mode 2:
after a comma, before/inside its `\s*`; mode 3: inside `\d+`. `acc` counts
the characters already matched; the result is the total match length. -/
def matchGroupsSM : ℕ → ℕ → Str → Option ℕ
  | _, _, [] => Option.none
  | 0, acc, c :: cs =>
    if c == ']' then some (acc + 1)
    else if pyIsSpace c then matchGroupsSM 1 (acc + 1) cs
    else if c == ',' then matchGroupsSM 2 (acc + 1) cs
    else Option.none
  | 1, acc, c :: cs =>
    if pyIsSpace c then matchGroupsSM 1 (acc + 1) cs
    else if c == ',' then matchGroupsSM 2 (acc + 1) cs
    else Option.none
  | 2, acc, c :: cs =>
    if pyIsSpace c then matchGroupsSM 2 (acc + 1) cs
    else if isDigitChar c then matchGroupsSM 3 (acc + 1) cs
    else Option.none
  | _, acc, c :: cs =>
    if isDigitChar c then matchGroupsSM 3 (acc + 1) cs
    else if c == ']' then some (acc + 1)
    else if pyIsSpace c then matchGroupsSM 1 (acc + 1) cs
    else if c == ',' then matchGroupsSM 2 (acc + 1) cs
    else Option.none

/-- One attempted match of the faithfulness `CITATION_RE` at the head of `s`:
the match length on success. -/
def matchCitationFAt (s : Str) : Option ℕ :=
  match dropLitCi (("[source").toList) s with
  | Option.none => Option.none
  | some r1 =>
    let (k, r2) := spanSpaces r1
    if k == 0 then Option.none
    else
      let (ds, r3) := spanDigits r2
      if ds.isEmpty then Option.none
      else matchGroupsSM 0 (7 + k + ds.length) r3

/-- `CITATION_RE.sub("", s)` for the faithfulness pattern. The counter skips
the remaining characters of a found match; matches never overlap because `[`
occurs only at a match's first character. -/
def subCitations : ℕ → Str → Str
  | _, [] => []
  | n + 1, _ :: cs => subCitations n cs
  | 0, c :: cs =>
    match matchCitationFAt (c :: cs) with
    | some len => subCitations (len - 1) cs
    | Option.none => c :: subCitations 0 cs

/-- `CITATION_RE.search` for the faithfulness pattern. -/
def searchCitationF : Str → Bool
  | [] => false
  | c :: cs => (matchCitationFAt (c :: cs)).isSome || searchCitationF cs

/-- `_claim_is_supported(claim, source_corpus, source_tokens)` from
`faithfulness.py`. -/
def _claim_is_supported (claim : Str) (source_corpus : Str) (source_tokens : List Str) : Bool :=
  let compact_claim := lowerStr (pyStrip (subCitations 0 claim))
  if compact_claim.isEmpty then false
  else if isSub compact_claim source_corpus then true
  else
    let tokens := _claim_tokens compact_claim
    if tokens.isEmpty then false
    else
      let overlap := (tokens.filter (fun t => t ∈ source_tokens)).length
      decide ((overlap : ℚ) / (max 1 tokens.length : ℕ) ≥ 45 / 100)

/-- Round-half-to-even on a rational, as Python's `round`. -/
def roundHalfEven (x : ℚ) : ℤ :=
  let f := Int.floor x
  let r := x - f
  if r < 1 / 2 then f
  else if 1 / 2 < r then f + 1
  else if Even f then f else f + 1

/-- Python's `round(x, 3)`. -/
def round3 (x : ℚ) : ℚ := (roundHalfEven (1000 * x) : ℚ) / 1000

/-- `faithfulness_score(answer, sources)` from `faithfulness.py`. -/
def faithfulness_score (answer : Str) (sources : List Citations.Source) : ℚ :=
  let claims := _split_claims answer
  if claims.isEmpty || sources.isEmpty then 0
  else
    let source_corpus := _source_text sources
    let source_tokens := (findTokens source_corpus).map lowerStr
    if source_tokens.isEmpty then 0
    else
      let supported := (claims.filter (fun c => _claim_is_supported c source_corpus source_tokens)).length
      let with_citation := (claims.filter (fun c => searchCitationF c)).length
      let support_ratio := (supported : ℚ) / (max 1 claims.length : ℕ)
      let citation_ratio := (with_citation : ℚ) / (max 1 claims.length : ℕ)
      let source_coverage := min 1 ((sources.length : ℚ) / 4)
      let score := 0.60 * support_ratio + 0.30 * citation_ratio + 0.10 * source_coverage
      round3 (max 0 (min 1 score))

/-- The support test exactly as the specification words it: "after stripping
citation markers, it is an exact substring of the concatenated lower-cased
source text or at least 45% of its content tokens (length > 2, stop-words
excluded) appear in the source token set". -/
def spec_supported (claim : Str) (source_corpus : Str) (source_tokens : List Str) : Bool :=
  let compact_claim := lowerStr (pyStrip (subCitations 0 claim))
  if isSub compact_claim source_corpus then true
  else
    let tokens := _claim_tokens compact_claim
    let overlap := (tokens.filter (fun t => t ∈ source_tokens)).length
    decide ((overlap : ℚ) / tokens.length ≥ 45 / 100)

/-- The score formula exactly as the specification states it:
`0.60*support_ratio + 0.30*citation_ratio + 0.10*min(1, source_count/4)`,
rounded to 3 decimals, `0.0` without claims or sources. -/
def spec_faithfulness_score (answer : Str) (sources : List Citations.Source) : ℚ :=
  let claims := _split_claims answer
  if claims.isEmpty || sources.isEmpty then 0
  else
    let source_corpus := _source_text sources
    let source_tokens := (findTokens source_corpus).map lowerStr
    let supported := (claims.filter (fun c => spec_supported c source_corpus source_tokens)).length
    let with_citation := (claims.filter (fun c => searchCitationF c)).length
    round3 (0.60 * ((supported : ℚ) / claims.length) + 0.30 * ((with_citation : ℚ) / claims.length)
      + 0.10 * min 1 ((sources.length : ℚ) / 4))

/-- The specification's support test amended with the code's guard: a claim
that is empty after citation-marker stripping counts as unsupported. -/
def spec_supported_amended (claim : Str) (source_corpus : Str) (source_tokens : List Str) : Bool :=
  let compact_claim := lowerStr (pyStrip (subCitations 0 claim))
  if compact_claim.isEmpty then false
  else spec_supported claim source_corpus source_tokens

/-- The specification's score formula with the amended support test. -/
def spec_faithfulness_score_amended (answer : Str) (sources : List Citations.Source) : ℚ :=
  let claims := _split_claims answer
  if claims.isEmpty || sources.isEmpty then 0
  else
    let source_corpus := _source_text sources
    let source_tokens := (findTokens source_corpus).map lowerStr
    let supported := (claims.filter (fun c => spec_supported_amended c source_corpus source_tokens)).length
    let with_citation := (claims.filter (fun c => searchCitationF c)).length
    round3 (0.60 * ((supported : ℚ) / claims.length) + 0.30 * ((with_citation : ℚ) / claims.length)
      + 0.10 * min 1 ((sources.length : ℚ) / 4))

end Faith
namespace Faith

theorem roundHalfEven_nonneg {x : ℚ} (h : 0 ≤ x) : 0 ≤ roundHalfEven x := by
  simp only [roundHalfEven]
  have hf : (0 : ℤ) ≤ Int.floor x := Int.floor_nonneg.mpr h
  split_ifs <;> omega

theorem roundHalfEven_le {x : ℚ} {n : ℕ} (h : x ≤ n) : roundHalfEven x ≤ n := by
  simp only [roundHalfEven]
  have hf : Int.floor x ≤ n := by
    calc Int.floor x ≤ Int.floor (n : ℚ) := Int.floor_le_floor h
    _ = n := Int.floor_natCast n
  by_cases h1 : x - Int.floor x < 1 / 2
  · rw [if_pos h1]; exact hf
  · rw [if_neg h1]
    have hlt : Int.floor x < n ∨ Int.floor x = n := lt_or_eq_of_le hf
    have hstrict : Int.floor x < n := by
      rcases hlt with h2 | h2
      · exact h2
      · exfalso
        have : (Int.floor x : ℚ) ≤ x := Int.floor_le x
        have hxn : x - Int.floor x ≤ 0 := by
          rw [h2]
          push_cast
          linarith
        linarith [hxn, not_lt.mp h1]
    split_ifs <;> omega

theorem round3_bounds {x : ℚ} (h0 : 0 ≤ x) (h1 : x ≤ 1) : 0 ≤ round3 x ∧ round3 x ≤ 1 := by
  unfold round3
  have ha : (0 : ℚ) ≤ 1000 * x := by linarith
  have hb : 1000 * x ≤ (1000 : ℕ) := by push_cast; linarith
  have hc := roundHalfEven_nonneg ha
  have hd := roundHalfEven_le hb
  constructor
  · positivity
  · rw [div_le_one (by norm_num)]
    calc (roundHalfEven (1000 * x) : ℚ) ≤ ((1000 : ℕ) : ℤ) := by exact_mod_cast hd
    _ = 1000 := by norm_num

theorem claim_is_supported_eq (claim source_corpus : Str) (source_tokens : List Str) :
    _claim_is_supported claim source_corpus source_tokens
      = spec_supported_amended claim source_corpus source_tokens := by
  unfold _claim_is_supported spec_supported_amended spec_supported
  by_cases h1 : (lowerStr (pyStrip (subCitations 0 claim))).isEmpty = true
  · rw [if_pos h1, if_pos h1]
  · rw [if_neg h1, if_neg h1]
    by_cases h2 : isSub (lowerStr (pyStrip (subCitations 0 claim))) source_corpus = true
    · rw [if_pos h2, if_pos h2]
    · rw [if_neg h2, if_neg h2]
      by_cases h3 : (_claim_tokens (lowerStr (pyStrip (subCitations 0 claim)))).isEmpty = true
      · rw [if_pos h3]
        have hz : (_claim_tokens (lowerStr (pyStrip (subCitations 0 claim)))) = [] :=
          List.isEmpty_iff.mp h3
        rw [hz]
        simp
      · rw [if_neg h3]
        have hz : (_claim_tokens (lowerStr (pyStrip (subCitations 0 claim)))) ≠ [] := by
          intro hcon
          rw [hcon] at h3
          exact h3 rfl
        have hl : 1 ≤ (_claim_tokens (lowerStr (pyStrip (subCitations 0 claim)))).length :=
          List.length_pos.mpr hz
        have hmax : max 1 (_claim_tokens (lowerStr (pyStrip (subCitations 0 claim)))).length
            = (_claim_tokens (lowerStr (pyStrip (subCitations 0 claim)))).length := by omega
        rw [hmax]

end Faith
namespace Faith

theorem round3_clamped_bounds (X : ℚ) :
    0 ≤ round3 (max 0 (min 1 X)) ∧ round3 (max 0 (min 1 X)) ≤ 1 :=
  round3_bounds (le_max_left 0 _) (max_le zero_le_one (min_le_left 1 _))

theorem round3_clamp_eq {s w n m : ℕ} (hs : s ≤ n) (hw : w ≤ n) (hn : 1 ≤ n) :
    round3 (max 0 (min 1 (0.60 * ((s : ℚ) / (max 1 n : ℕ)) + 0.30 * ((w : ℚ) / (max 1 n : ℕ))
        + 0.10 * min 1 ((m : ℚ) / 4))))
      = round3 (0.60 * ((s : ℚ) / n) + 0.30 * ((w : ℚ) / n) + 0.10 * min 1 ((m : ℚ) / 4)) := by
  have hmax : max 1 n = n := by omega
  rw [hmax]
  have h1 : (0 : ℚ) < n := by exact_mod_cast hn
  have hA1 : (s : ℚ) / n ≤ 1 := by
    rw [div_le_one h1]
    exact_mod_cast hs
  have hA0 : 0 ≤ (s : ℚ) / n := by positivity
  have hB1 : (w : ℚ) / n ≤ 1 := by
    rw [div_le_one h1]
    exact_mod_cast hw
  have hB0 : 0 ≤ (w : ℚ) / n := by positivity
  have hC0 : 0 ≤ min 1 ((m : ℚ) / 4) := le_min zero_le_one (by positivity)
  have hC1 : min 1 ((m : ℚ) / 4) ≤ 1 := min_le_left 1 _
  have hX0 : 0 ≤ 0.60 * ((s : ℚ) / n) + 0.30 * ((w : ℚ) / n) + 0.10 * min 1 ((m : ℚ) / 4) := by
    nlinarith
  have hX1 : 0.60 * ((s : ℚ) / n) + 0.30 * ((w : ℚ) / n) + 0.10 * min 1 ((m : ℚ) / 4) ≤ 1 := by
    nlinarith
  rw [min_eq_right hX1, max_eq_right hX0]

/-- C7 (amended): `faithfulness_score` always lies in `[0, 1]`; it is `0`
when there are no claims or no sources; and whenever the concatenated source
text has at least one word token it equals the specified
`round3(0.60*support_ratio + 0.30*citation_ratio + 0.10*min(1, sources/4))`
formula, with the support test amended so that a claim that is empty after
citation-marker stripping counts as unsupported. -/
theorem faithfulness_score_spec (answer : Str) (sources : List Citations.Source) :
    (0 ≤ faithfulness_score answer sources ∧ faithfulness_score answer sources ≤ 1) ∧
    (_split_claims answer = [] ∨ sources = [] → faithfulness_score answer sources = 0) ∧
    (findTokens (_source_text sources) ≠ [] →
      faithfulness_score answer sources = spec_faithfulness_score_amended answer sources) := by
  refine ⟨?_, ?_, ?_⟩
  · simp only [faithfulness_score]
    by_cases hc1 : ((_split_claims answer).isEmpty || sources.isEmpty) = true
    · rw [if_pos hc1]
      norm_num
    · rw [if_neg hc1]
      by_cases hc2 : (((findTokens (_source_text sources)).map lowerStr).isEmpty) = true
      · rw [if_pos hc2]
        norm_num
      · rw [if_neg hc2]
        exact round3_clamped_bounds _
  · intro h
    simp only [faithfulness_score]
    have hc1 : ((_split_claims answer).isEmpty || sources.isEmpty) = true := by
      rcases h with h | h
      · simp [h]
      · simp [h]
    rw [if_pos hc1]
  · intro h
    simp only [faithfulness_score, spec_faithfulness_score_amended]
    by_cases hc1 : ((_split_claims answer).isEmpty || sources.isEmpty) = true
    · rw [if_pos hc1, if_pos hc1]
    · rw [if_neg hc1, if_neg hc1]
      have htok : (((findTokens (_source_text sources)).map lowerStr).isEmpty) = false := by
        rw [List.isEmpty_eq_false]
        simp only [ne_eq, List.map_eq_nil_iff]
        exact h
      rw [htok]
      rw [if_neg (by simp)]
      have hfun : (fun c => _claim_is_supported c (_source_text sources)
            ((findTokens (_source_text sources)).map lowerStr))
          = fun c => spec_supported_amended c (_source_text sources)
            ((findTokens (_source_text sources)).map lowerStr) :=
        funext fun c => claim_is_supported_eq c _ _
      rw [hfun]
      have hne : _split_claims answer ≠ [] := by
        intro hcon
        apply hc1
        simp [hcon]
      exact round3_clamp_eq (List.length_filter_le _ _) (List.length_filter_le _ _)
        (List.length_pos.mpr hne)

end Faith

/-- C7 counterexample: for the answer `"See [Source 1] details."` and a single
source whose snippet `"!!!"` has no word tokens, `faithfulness_score` returns
`0`, while the specified formula yields `round3(0.30 + 0.025) = 0.325`: the
claimed formula does not hold when the source text has no word tokens. -/
theorem faithfulness_score_claim_cex :
    Faith.faithfulness_score (("See [Source 1] details.").toList)
        [{snippet := ("!!!").toList}] = 0 ∧
    Faith.spec_faithfulness_score (("See [Source 1] details.").toList)
        [{snippet := ("!!!").toList}] = 13 / 40 ∧
    Faith.faithfulness_score (("See [Source 1] details.").toList)
        [{snippet := ("!!!").toList}]
      ≠ Faith.spec_faithfulness_score (("See [Source 1] details.").toList)
        [{snippet := ("!!!").toList}] := by
  have h1 : Faith.faithfulness_score (("See [Source 1] details.").toList)
      [{snippet := ("!!!").toList}] = 0 := rfl
  have hsupp : Faith.spec_supported (("See [Source 1] details.").toList) (("!!!").toList) [] = false := by
    simp only [Faith.spec_supported]
    rw [show isSub (lowerStr (pyStrip (Faith.subCitations 0 (("See [Source 1] details.").toList))))
      (("!!!").toList) = false from rfl]
    simp only [Bool.false_eq_true, if_false]
    rw [show ((Faith._claim_tokens (lowerStr (pyStrip (Faith.subCitations 0
      (("See [Source 1] details.").toList))))).filter (fun t => t ∈ ([] : List Str))).length
      = 0 from rfl]
    rw [show (Faith._claim_tokens (lowerStr (pyStrip (Faith.subCitations 0
      (("See [Source 1] details.").toList))))).length = 2 from rfl]
    norm_num
  have h2 : Faith.spec_faithfulness_score (("See [Source 1] details.").toList)
      [{snippet := ("!!!").toList}] = 13 / 40 := by
    simp only [Faith.spec_faithfulness_score]
    rw [show Faith._split_claims (("See [Source 1] details.").toList)
      = [("See [Source 1] details.").toList] from rfl]
    rw [show Faith._source_text [({snippet := ("!!!").toList} : Citations.Source)]
      = ("!!!").toList from rfl]
    rw [show (findTokens (("!!!").toList)).map lowerStr = ([] : List Str) from rfl]
    rw [show ([("See [Source 1] details.").toList].isEmpty
      || ([({snippet := ("!!!").toList} : Citations.Source)]).isEmpty) = false from rfl]
    simp only [Bool.false_eq_true, if_false]
    rw [List.filter_cons, List.filter_cons]
    rw [hsupp]
    rw [show Faith.searchCitationF (("See [Source 1] details.").toList) = true from rfl]
    simp only [List.filter_nil, if_true, if_false, Bool.false_eq_true, List.length_cons,
      List.length_nil, List.length_singleton]
    norm_num [Faith.round3, Faith.roundHalfEven]
  refine ⟨h1, h2, ?_⟩
  rw [h1, h2]
  norm_num

/-! ### Configuration (`app/core/config.py` defaults) -/

/-- The settings fields consumed by the embedded core, with the defaults of
`app/core/config.py`. -/
structure Settings where
  chunk_max_chars : ℤ := 600
  chunk_overlap_chars : ℤ := 80
  chunk_overlap_sentences : ℤ := 1
  chunk_min_chars : ℤ := 180
  chat_model_context_tokens : ℤ := 8192
  chat_context_budget_ratio : ℚ := 0.75
  chat_context_reserved_tokens : ℤ := 1200
  chat_context_min_tokens_per_source : ℤ := 80
  chat_context_max_tokens_per_source : ℤ := 260
  chat_context_compression_enabled : Bool := true
  chat_context_compression_target_ratio : ℚ := 0.60
  retrieval_top_k : ℤ := 5
  retrieval_dense_limit : ℤ := 20
  retrieval_sparse_pool : ℤ := 240
  retrieval_rerank_top_n : ℤ := 8
  retrieval_enable_cross_encoder : Bool := false
  retrieval_enable_query_expansion : Bool := true
  retrieval_query_expansion_max_variants : ℤ := 4
  retrieval_enable_hyde : Bool := false
  retrieval_hyde_max_chars : ℤ := 700

/-- The process-wide `settings` object, at its defaults. -/
def settings : Settings := {}

/-- Python's `s.split()` (no argument): maximal runs of non-whitespace. -/
def wsRunsAux : Str → Str → List Str
  | [], acc => if acc.isEmpty then [] else [acc.reverse]
  | c :: cs, acc =>
    if pyIsSpace c then
      if acc.isEmpty then wsRunsAux cs [] else acc.reverse :: wsRunsAux cs []
    else wsRunsAux cs (c :: acc)

/-- Python's `s.split()`. -/
def pySplitWs (s : Str) : List Str := wsRunsAux s []

namespace QExp

/-- The `STOPWORDS` set of `query_expansion.py`. -/
def STOPWORDS : List Str :=
  [("a").toList, ("an").toList, ("and").toList, ("are").toList, ("as").toList, ("at").toList,
    ("be").toList, ("by").toList, ("for").toList, ("from").toList, ("how").toList, ("in").toList,
    ("is").toList, ("it").toList, ("of").toList, ("on").toList, ("or").toList, ("that").toList,
    ("the").toList, ("to").toList, ("we").toList, ("what").toList, ("when").toList,
    ("where").toList, ("which").toList, ("who").toList, ("why").toList, ("with").toList]

/-- The loop of `_dedupe_variants`: `seen` holds the lower-cased keys already
emitted, `count` the number of variants already emitted (Python's `len(out)`). -/
def dedupeGo (max_items : ℕ) : List Str → List Str → ℕ → List Str
  | [], _, _ => []
  | v :: vs, seen, count =>
    let normalized := pyStrip v
    if normalized.isEmpty then dedupeGo max_items vs seen count
    else
      let key := lowerStr normalized
      if key ∈ seen then dedupeGo max_items vs seen count
      else if max_items ≤ count + 1 then [normalized]
      else normalized :: dedupeGo max_items vs (key :: seen) (count + 1)

/-- `_dedupe_variants(values, max_items)` from `query_expansion.py`. -/
def _dedupe_variants (values : List Str) (max_items : ℕ) : List Str :=
  dedupeGo max_items values [] 0

/-- `_keyword_variant(query, max_terms)` from `query_expansion.py`. -/
def _keyword_variant (query : Str) (max_terms : ℕ := 12) : Str :=
  let tokens := (findTokens query).map lowerStr
  let filtered := tokens.filter (fun t => 2 < t.length ∧ t ∉ STOPWORDS)
  let filtered2 := if filtered.isEmpty then tokens.take max_terms else filtered
  pyStrip (joinSep ((" ").toList) (filtered2.take max_terms))

/-- `_semantic_variant(query)` from `query_expansion.py`. -/
def _semantic_variant (query : Str) : Str :=
  let normalized := pyStrip query
  if normalized.isEmpty then []
  else
    ("Relevant documentation details for: ").toList ++ normalized ++
      (". Include policy rules, exceptions, procedures, and required approvals.").toList

/-- `_hyde_variant(query, history)` from `query_expansion.py`. The external
`llm_generate` call is a parameter: `Except.error` models a raised exception.
The prompt and history block built by the source only feed that external call,
so they are absorbed by the `llm` parameter. -/
def _hyde_variant (llm : Except Unit Str) (query : Str) : Option Str :=
  if !settings.retrieval_enable_hyde then Option.none
  else
    let normalized := pyStrip query
    if normalized.isEmpty then Option.none
    else
      match llm with
      | Except.error _ => Option.none
      | Except.ok synthetic =>
        let cleaned := pyStrip (joinSep ((" ").toList) (pySplitWs synthetic))
        if cleaned.isEmpty then Option.none
        else some (cleaned.take (max 120 settings.retrieval_hyde_max_chars).toNat)

/-- The candidate accumulation of `build_query_variants`: original query,
then keyword, semantic and HyDE variants when each is non-empty. -/
def expansion_candidates (llm : Except Unit Str) (normalized : Str) : List Str :=
  let candidates := [normalized]
  let keyword := _keyword_variant normalized
  let candidates2 := if !keyword.isEmpty then candidates ++ [keyword] else candidates
  let semantic := _semantic_variant normalized
  let candidates3 := if !semantic.isEmpty then candidates2 ++ [semantic] else candidates2
  match _hyde_variant llm normalized with
  | some h => if !h.isEmpty then candidates3 ++ [h] else candidates3
  | Option.none => candidates3

/-- `build_query_variants(query, history)` from `query_expansion.py`; `llm`
stands for the awaited HyDE generation call. -/
def build_query_variants (llm : Except Unit Str) (query : Str) : List Str :=
  let normalized := pyStrip query
  if normalized.isEmpty then [[]]
  else if !settings.retrieval_enable_query_expansion then [normalized]
  else
    _dedupe_variants (expansion_candidates llm normalized)
      (max 1 settings.retrieval_query_expansion_max_variants).toNat

end QExp

namespace QExp

theorem dedupeGo_length_le {max_items : ℕ} :
    ∀ (vs seen : List Str) (count : ℕ), count < max_items →
      (dedupeGo max_items vs seen count).length ≤ max_items - count := by
  intro vs
  induction vs with
  | nil => intro seen count h; simp [dedupeGo]
  | cons v rest ih =>
    intro seen count h
    simp only [dedupeGo]
    by_cases h1 : (pyStrip v).isEmpty = true
    · rw [if_pos h1]
      exact ih seen count h
    · rw [if_neg h1]
      by_cases h2 : lowerStr (pyStrip v) ∈ seen
      · rw [if_pos h2]
        exact ih seen count h
      · rw [if_neg h2]
        by_cases h3 : max_items ≤ count + 1
        · rw [if_pos h3]
          simp only [List.length_singleton]
          omega
        · rw [if_neg h3]
          simp only [List.length_cons]
          have := ih (lowerStr (pyStrip v) :: seen) (count + 1) (by omega)
          omega

theorem dedupeGo_stripped {max_items : ℕ} :
    ∀ (vs seen : List Str) (count : ℕ) (x : Str),
      x ∈ dedupeGo max_items vs seen count → pyStrip x = x := by
  intro vs
  induction vs with
  | nil => intro seen count x h; simp [dedupeGo] at h
  | cons v rest ih =>
    intro seen count x h
    simp only [dedupeGo] at h
    by_cases h1 : (pyStrip v).isEmpty = true
    · rw [if_pos h1] at h
      exact ih seen count x h
    · rw [if_neg h1] at h
      by_cases h2 : lowerStr (pyStrip v) ∈ seen
      · rw [if_pos h2] at h
        exact ih seen count x h
      · rw [if_neg h2] at h
        by_cases h3 : max_items ≤ count + 1
        · rw [if_pos h3] at h
          rw [List.mem_singleton] at h
          rw [h]
          exact pyStrip_idem v
        · rw [if_neg h3] at h
          rcases List.mem_cons.mp h with h | h
          · rw [h]
            exact pyStrip_idem v
          · exact ih _ _ x h

theorem dedupeGo_keys {max_items : ℕ} :
    ∀ (vs seen : List Str) (count : ℕ),
      (∀ x ∈ dedupeGo max_items vs seen count, lowerStr x ∉ seen) ∧
      List.Pairwise (fun a b => lowerStr a ≠ lowerStr b) (dedupeGo max_items vs seen count) := by
  intro vs
  induction vs with
  | nil => intro seen count; simp [dedupeGo]
  | cons v rest ih =>
    intro seen count
    simp only [dedupeGo]
    by_cases h1 : (pyStrip v).isEmpty = true
    · rw [if_pos h1]
      exact ih seen count
    · rw [if_neg h1]
      by_cases h2 : lowerStr (pyStrip v) ∈ seen
      · rw [if_pos h2]
        exact ih seen count
      · rw [if_neg h2]
        by_cases h3 : max_items ≤ count + 1
        · rw [if_pos h3]
          constructor
          · intro x hx
            rw [List.mem_singleton] at hx
            rw [hx]
            exact h2
          · simp
        · rw [if_neg h3]
          obtain ⟨ihmem, ihpw⟩ := ih (lowerStr (pyStrip v) :: seen) (count + 1)
          constructor
          · intro x hx
            rcases List.mem_cons.mp hx with hx | hx
            · rw [hx]; exact h2
            · intro hcon
              exact (ihmem x hx) (List.mem_cons_of_mem _ hcon)
          · refine List.Pairwise.cons ?_ ihpw
            intro b hb
            have := ihmem b hb
            intro hcon
            exact this (by rw [← hcon]; exact List.mem_cons_self _ _)

theorem expansion_candidates_head (llm : Except Unit Str) (n : Str) :
    ∃ t, expansion_candidates llm n = n :: t := by
  simp only [expansion_candidates]
  rcases _hyde_variant llm n with _ | h
  · dsimp only
    split_ifs <;> exact ⟨_, rfl⟩
  · dsimp only
    split_ifs <;> exact ⟨_, rfl⟩

/-- C9: `build_query_variants` returns at least one variant and at most the
configured maximum, pairwise distinct after trimming and case-folding; a
non-empty query's trimmed form is the first variant, and an empty or
whitespace-only query yields exactly the single empty variant. -/
theorem build_query_variants_contract (llm : Except Unit Str) (query : Str) :
    1 ≤ (build_query_variants llm query).length ∧
    (build_query_variants llm query).length
      ≤ (max 1 settings.retrieval_query_expansion_max_variants).toNat ∧
    List.Pairwise (fun a b => lowerStr (pyStrip a) ≠ lowerStr (pyStrip b))
      (build_query_variants llm query) ∧
    (pyStrip query ≠ [] → (build_query_variants llm query).head? = some (pyStrip query)) ∧
    (pyStrip query = [] → build_query_variants llm query = [[]]) := by
  by_cases hq : (pyStrip query).isEmpty = true
  · have hq' : pyStrip query = [] := List.isEmpty_iff.mp hq
    have hres : build_query_variants llm query = [[]] := by
      unfold build_query_variants
      rw [if_pos hq]
    refine ⟨by rw [hres]; simp, by rw [hres]; decide, by rw [hres]; simp, ?_,
      fun _ => hres⟩
    intro hcon
    exact absurd hq' hcon
  · have hq' : pyStrip query ≠ [] := by
      intro hcon
      rw [hcon] at hq
      exact hq rfl
    obtain ⟨t, ht⟩ := expansion_candidates_head llm (pyStrip query)
    have hres : build_query_variants llm query = dedupeGo 4 (pyStrip query :: t) [] 0 := by
      unfold build_query_variants
      rw [if_neg hq, if_neg (by decide)]
      simp only [_dedupe_variants]
      rw [ht]
      rfl
    have hone : dedupeGo 4 (pyStrip query :: t) [] 0
        = pyStrip query :: dedupeGo 4 t [lowerStr (pyStrip query)] 1 := by
      simp only [dedupeGo]
      rw [pyStrip_idem]
      rw [if_neg (by simpa using hq)]
      rw [if_neg (by simp)]
      rw [if_neg (by norm_num)]
    refine ⟨?_, ?_, ?_, ?_, fun hcon => absurd hcon hq'⟩
    · rw [hres, hone]
      simp
    · rw [hres]
      have hb := @dedupeGo_length_le 4 (pyStrip query :: t) [] 0 (by norm_num)
      exact hb
    · rw [hres]
      refine List.Pairwise.imp_of_mem ?_ (dedupeGo_keys _ _ _).2
      intro a b ha hb hne
      rw [dedupeGo_stripped _ _ _ _ ha, dedupeGo_stripped _ _ _ _ hb]
      exact hne
    · intro _
      rw [hres, hone]
      rfl

end QExp

namespace Retr

/-- The reciprocal-rank-fusion constant `RRF_K = 60.0` of `retrieval.py`. -/
def RRF_K : ℚ := 60

/-- The unified retrieval candidate of `retrieval.py`. -/
structure Candidate where
  point_id : Str
  text : Str := []
  metadata : List (Str × Str) := []
  doc_id : Option ℤ := Option.none
  dense_score : ℚ := 0
  sparse_score : ℚ := 0
  final_score : ℚ := 0
deriving Inhabited, Repr

/-- The dict rows returned by `hybrid_retrieve`. -/
structure RetrievalResult where
  snippet : Str
  score : ℚ
  metadata : List (Str × Str)
  doc_id : Option ℤ
  dense_score : ℚ
  sparse_score : ℚ
deriving Inhabited, Repr

/-- `_tokenize(text)` from `retrieval.py`. -/
def _tokenize (text : Str) : List Str := (findTokens text).map lowerStr

/-- `_bm25_scores(query, docs)` from `retrieval.py`. `log` abstracts
`math.log` (transcendental, identical on both sides of every refinement
statement); `1e-9` is idealised as the exact rational `10⁻⁹`. -/
def _bm25_scores (log : ℚ → ℚ) (query : Str) (docs : List Str) : List ℚ :=
  if docs.isEmpty then []
  else
    let tokenized_docs := docs.map _tokenize
    let q_terms := _tokenize query
    if q_terms.isEmpty then docs.map (fun _ => 0)
    else
      let n_docs := tokenized_docs.length
      let avg_len : ℚ := ((tokenized_docs.map List.length).sum : ℚ) / ((max 1 n_docs : ℕ) : ℚ)
      let k1 : ℚ := 1.2
      let b : ℚ := 0.75
      let df : Str → ℕ := tokenized_docs.foldl
        (fun acc tokens => fun term => if term ∈ tokens then acc term + 1 else acc term)
        (fun _ => 0)
      tokenized_docs.map (fun tokens =>
        let tf : Str → ℕ := tokens.foldl
          (fun acc term => fun t => if t = term then acc t + 1 else acc t) (fun _ => 0)
        let doc_len : ℕ := max 1 tokens.length
        q_terms.foldl (fun score term =>
          if tf term = 0 then score
          else
            let term_df := df term
            let idf := log (1 + ((n_docs : ℚ) - (term_df : ℚ) + 0.5) / ((term_df : ℚ) + 0.5))
            let freq := tf term
            let denom : ℚ := (freq : ℚ) + k1 * (1 - b + b * ((doc_len : ℚ) / max 1e-9 avg_len))
            score + idf * (((freq : ℚ) * (k1 + 1)) / max 1e-9 denom)) 0)

/-- The BM25 score exactly as the claim states it: for each document the sum,
over query terms occurring in it, of `idf * tf*(k1+1)/(tf + k1*(1-b+b*doc_len/avg_len))`
with `k1 = 1.2`, `b = 0.75`, `idf = log(1 + (N - df + 0.5)/(df + 0.5))`, `df`
the number of pool documents containing the term, `doc_len` the document's
token count and `avg_len` the pool's mean token count; a token-less query
scores `0.0` everywhere. -/
def bm25_spec (log : ℚ → ℚ) (query : Str) (docs : List Str) : List ℚ :=
  let tokenized_docs := docs.map _tokenize
  let q_terms := _tokenize query
  let n_docs := tokenized_docs.length
  let avg_len : ℚ := ((tokenized_docs.map List.length).sum : ℚ) / (n_docs : ℚ)
  tokenized_docs.map (fun tokens =>
    (q_terms.map (fun term =>
      let tf : ℕ := tokens.count term
      if tf = 0 then 0
      else
        let term_df := (tokenized_docs.filter (fun d => term ∈ d)).length
        let idf := log (1 + ((n_docs : ℚ) - (term_df : ℚ) + 0.5) / ((term_df : ℚ) + 0.5))
        idf * (((tf : ℚ) * (1.2 + 1)) /
          ((tf : ℚ) + 1.2 * (1 - 0.75 + 0.75 * ((tokens.length : ℚ) / avg_len)))))).sum)

/-- Association-list `get` (Python `dict.get`). -/
def alGet (m : List (Str × α)) (k : Str) : Option α := m.lookup k

/-- Association-list assignment with Python-dict semantics: update in place,
append a fresh key. -/
def alSet : List (Str × α) → Str → α → List (Str × α)
  | [], k, v => [(k, v)]
  | (k', v') :: rest, k, v =>
    if k' = k then (k, v) :: rest else (k', v') :: alSet rest k v

/-- Stable descending insertion: `x` goes after every element whose key is at
least its own. Folding it is Python's stable `sorted(key=..., reverse=True)`. -/
def insertDesc (key : α → ℚ) (x : α) : List α → List α
  | [] => [x]
  | y :: ys => if key x ≤ key y then y :: insertDesc key x ys else x :: y :: ys

/-- Python's `sorted(l, key=key, reverse=True)`. -/
def pySortDesc (key : α → ℚ) (l : List α) : List α :=
  l.foldl (fun acc x => insertDesc key x acc) []

/-- The rank-indexed RRF accumulation
`m[pid] = m.get(pid, 0.0) + 1/(RRF_K + rank)` shared by the dense and sparse
passes of `hybrid_retrieve` (`rank` is 1-based). -/
def rrfRankLoop : List Str → ℕ → List (Str × ℚ) → List (Str × ℚ)
  | [], _, m => m
  | pid :: rest, rank, m =>
    rrfRankLoop rest (rank + 1) (alSet m pid ((alGet m pid).getD 0 + 1 / (RRF_K + (rank : ℚ))))

/-- The accumulated RRF map of a family of ranked id lists (one per query
variant), as `hybrid_retrieve` builds `dense_rrf_rank` and `sparse_rrf_rank`. -/
def rrfAccum (ls : List (List Str)) : List (Str × ℚ) :=
  ls.foldl (fun m l => rrfRankLoop l 1 m) []

/-- A candidate's fused pre-rerank `final_score` in `hybrid_retrieve`:
`dense_rrf_rank.get(pid, 0.0) + sparse_rrf_rank.get(pid, 0.0)` for the given
per-variant ranked id lists. -/
def fused_rrf_score (denseLists sparseLists : List (List Str)) (pid : Str) : ℚ :=
  (alGet (rrfAccum denseLists) pid).getD 0 + (alGet (rrfAccum sparseLists) pid).getD 0

/-- The `for rank, candidate in enumerate(ranked_dense, start=1)` loop of the
dense pass: RRF accumulation plus best-raw-similarity tracking. -/
def denseRankLoop : List Candidate → ℕ → List (Str × ℚ) → List (Str × Candidate) →
    List (Str × ℚ) × List (Str × Candidate)
  | [], _, m, b => (m, b)
  | c :: cs, rank, m, b =>
    let m2 := alSet m c.point_id ((alGet m c.point_id).getD 0 + 1 / (RRF_K + (rank : ℚ)))
    let b2 := match alGet b c.point_id with
      | Option.none => alSet b c.point_id c
      | some existing =>
        if existing.dense_score < c.dense_score then alSet b c.point_id c else b
    denseRankLoop cs (rank + 1) m2 b2

/-- The dense pass of `hybrid_retrieve` over the per-variant hit lists:
each list is sorted by raw similarity descending, then rank-accumulated. -/
def denseAccum (variantHits : List (List Candidate)) :
    List (Str × ℚ) × List (Str × Candidate) :=
  variantHits.foldl
    (fun st dense_hits =>
      let ranked_dense := pySortDesc (fun c => c.dense_score) dense_hits
      denseRankLoop ranked_dense 1 st.1 st.2)
    ([], [])

/-- The `for candidate, score in zip(...)` filter of the sparse pass: keeps
positive scores, updating `sparse_best_scores`. -/
def collectPositive : List (Candidate × ℚ) → List (Str × ℚ) →
    List (Str × ℚ) × List (Str × ℚ)
  | [], best => (best, [])
  | (c, s) :: rest, best =>
    if s ≤ 0 then collectPositive rest best
    else
      let best2 := alSet best c.point_id (max ((alGet best c.point_id).getD 0) s)
      let (best3, ranked) := collectPositive rest best2
      (best3, (c.point_id, s) :: ranked)

/-- The `for rank, (point_id, _) in enumerate(ranked_sparse, start=1)` loop. -/
def sparseRankLoop : List (Str × ℚ) → ℕ → List (Str × ℚ) → List (Str × ℚ)
  | [], _, m => m
  | (pid, _) :: rest, rank, m =>
    sparseRankLoop rest (rank + 1) (alSet m pid ((alGet m pid).getD 0 + 1 / (RRF_K + (rank : ℚ))))

/-- The sparse pass of `hybrid_retrieve`: per variant, BM25 scores over the
snapshot, positive-score filtering, descending sort, RRF accumulation. -/
def sparseAccum (log : ℚ → ℚ) (corpus : List Candidate) (variants : List Str) :
    List (Str × ℚ) × List (Str × ℚ) :=
  let docs := corpus.map (fun c => c.text)
  variants.foldl
    (fun st variant =>
      let variant_scores := _bm25_scores log variant docs
      let (best2, ranked) := collectPositive (corpus.zip variant_scores) st.2
      let ranked_sorted := pySortDesc (fun p => p.2) ranked
      (sparseRankLoop ranked_sorted 1 st.1, best2))
    ([], [])

/-- `sparse_by_id = {c.point_id: c for c in sparse_corpus}`: the last
candidate with a given id wins. -/
def sparseById (corpus : List Candidate) (pid : Str) : Option Candidate :=
  corpus.reverse.find? (fun c => c.point_id = pid)

/-- The `for point_id in sparse_rrf_rank` merge loop of `hybrid_retrieve`:
sparse-only candidates join `by_id`, and `sparse_score` is raised to the best
sparse score. -/
def mergeSparse (corpus : List Candidate) (best : List (Str × ℚ)) :
    List Str → List (Str × Candidate) → List (Str × Candidate)
  | [], by_id => by_id
  | pid :: rest, by_id =>
    match sparseById corpus pid with
    | Option.none => mergeSparse corpus best rest by_id
    | some c =>
      let by_id2 := if (alGet by_id pid).isSome then by_id else alSet by_id pid c
      match alGet by_id2 pid with
      | Option.none => mergeSparse corpus best rest by_id2
      | some cur =>
        mergeSparse corpus best rest (alSet by_id2 pid
          { cur with sparse_score := max cur.sparse_score ((alGet best pid).getD 0) })

/-- `_normalize_query_variants(query, query_variants)` from `retrieval.py`. -/
def normVariantsGo : List Str → List Str → List Str
  | [], _ => []
  | v :: vs, seen =>
    let normalized := pyStrip v
    if normalized.isEmpty then normVariantsGo vs seen
    else if lowerStr normalized ∈ seen then normVariantsGo vs seen
    else normalized :: normVariantsGo vs (lowerStr normalized :: seen)

/-- `_normalize_query_variants`: de-duplicated non-empty variants, original
query first; `out or [query.strip() or query]` as the fallback. -/
def _normalize_query_variants (query : Str) (query_variants : Option (List Str)) : List Str :=
  let out := normVariantsGo (query :: query_variants.getD []) []
  if out.isEmpty then [if (pyStrip query).isEmpty then query else pyStrip query] else out

/-- `_optional_cross_encoder_score`: `None` when the cross-encoder is disabled
(the default) or when loading/predicting fails (`ce` returning `none`). -/
def _optional_cross_encoder_score (ce : Str → List Str → Option (List ℚ))
    (query : Str) (docs : List Str) : Option (List ℚ) :=
  if !settings.retrieval_enable_cross_encoder then Option.none
  else ce query docs

/-- Python's `x or default` on an optional integer argument (`None` and `0`
both fall back). -/
def orFalsy (v : Option ℤ) (d : ℤ) : ℤ :=
  match v with
  | Option.none => d
  | some x => if x = 0 then d else x

/-- The in-place cross-encoder rescoring
`c.final_score = 2.0*s + c.final_score` over `zip(pre_rerank, ce_scores)`. -/
def applyCe (l : List Candidate) (scores : List ℚ) : List Candidate :=
  ((l.zip scores).map (fun p => { p.1 with final_score := 2 * p.2 + p.1.final_score }))
    ++ l.drop scores.length

/-- `hybrid_retrieve` from `retrieval.py`. External effects are parameters:
`denseSearch variant limit` models `_dense_search` against the resolved
collection (raising = `Except.error`), `scroll` models `_scroll_candidates`
(the bounded snapshot read, raising = `Except.error`), `ce` the optional
cross-encoder, `log` the `math.log` used by BM25. The per-variant dense
searches run before the accumulation (they carry no state), which preserves
the source's failure semantics. -/
def hybrid_retrieve (log : ℚ → ℚ) (denseSearch : Str → ℤ → Except Unit (List Candidate))
    (scroll : Except Unit (List Candidate)) (ce : Str → List Str → Option (List ℚ))
    (query : Str) (top_k? dense_limit? sparse_pool? rerank_top_n? : Option ℤ := Option.none)
    (query_variants : Option (List Str) := Option.none) : Except Unit (List RetrievalResult) := do
  let top_k := orFalsy top_k? settings.retrieval_top_k
  let dense_limit := orFalsy dense_limit? settings.retrieval_dense_limit
  let sparse_pool := sparse_pool?.getD settings.retrieval_sparse_pool
  let rerank_top_n := orFalsy rerank_top_n? settings.retrieval_rerank_top_n
  let variants := _normalize_query_variants query query_variants
  let denseResults ← variants.mapM (fun v => denseSearch v dense_limit)
  let (dense_rrf_rank, dense_best) := denseAccum denseResults
  let sparse_corpus ← if 0 < sparse_pool then scroll else pure []
  let (sparse_rrf_rank, sparse_best_scores) := sparseAccum log sparse_corpus variants
  let by_id := mergeSparse sparse_corpus sparse_best_scores (sparse_rrf_rank.map Prod.fst) dense_best
  let merged := (by_id.map Prod.snd).map (fun c =>
    { c with final_score := (alGet dense_rrf_rank c.point_id).getD 0
        + (alGet sparse_rrf_rank c.point_id).getD 0 })
  let sorted := pySortDesc (fun c => c.final_score) merged
  let pre_rerank := sorted.take (max top_k rerank_top_n).toNat
  let reranked := match _optional_cross_encoder_score ce query (pre_rerank.map (fun c => c.text)) with
    | some l =>
      if l.isEmpty then pre_rerank
      else pySortDesc (fun c => c.final_score) (applyCe pre_rerank l)
    | Option.none => pre_rerank
  let out := reranked.take top_k.toNat
  pure (out.map (fun c =>
    { snippet := c.text, score := c.final_score, metadata := c.metadata, doc_id := c.doc_id,
      dense_score := c.dense_score, sparse_score := c.sparse_score }))

/-- The dense-only pipeline: what `hybrid_retrieve` computes with an empty
sparse contribution (empty snapshot), per the specification's degradation
contract. -/
def dense_only_retrieve (_log : ℚ → ℚ) (denseSearch : Str → ℤ → Except Unit (List Candidate))
    (ce : Str → List Str → Option (List ℚ)) (query : Str)
    (top_k? dense_limit? rerank_top_n? : Option ℤ := Option.none)
    (query_variants : Option (List Str) := Option.none) : Except Unit (List RetrievalResult) := do
  let top_k := orFalsy top_k? settings.retrieval_top_k
  let dense_limit := orFalsy dense_limit? settings.retrieval_dense_limit
  let rerank_top_n := orFalsy rerank_top_n? settings.retrieval_rerank_top_n
  let variants := _normalize_query_variants query query_variants
  let denseResults ← variants.mapM (fun v => denseSearch v dense_limit)
  let (dense_rrf_rank, dense_best) := denseAccum denseResults
  let merged := (dense_best.map Prod.snd).map (fun c =>
    { c with final_score := (alGet dense_rrf_rank c.point_id).getD 0 })
  let sorted := pySortDesc (fun c => c.final_score) merged
  let pre_rerank := sorted.take (max top_k rerank_top_n).toNat
  let reranked := match _optional_cross_encoder_score ce query (pre_rerank.map (fun c => c.text)) with
    | some l =>
      if l.isEmpty then pre_rerank
      else pySortDesc (fun c => c.final_score) (applyCe pre_rerank l)
    | Option.none => pre_rerank
  let out := reranked.take top_k.toNat
  pure (out.map (fun c =>
    { snippet := c.text, score := c.final_score, metadata := c.metadata, doc_id := c.doc_id,
      dense_score := c.dense_score, sparse_score := c.sparse_score }))

end Retr

namespace Retr

theorem bm25_scores_nil (log : ℚ → ℚ) (variant : Str) : _bm25_scores log variant [] = [] := rfl

theorem sparseAccum_nil (log : ℚ → ℚ) :
    ∀ (variants : List Str), sparseAccum log [] variants = ([], []) := by
  have hstep : ∀ (st : List (Str × ℚ) × List (Str × ℚ)) (variant : Str),
      (fun (st : List (Str × ℚ) × List (Str × ℚ)) variant =>
        let variant_scores := _bm25_scores log variant (([] : List Candidate).map (fun c => c.text))
        let p := collectPositive (([] : List Candidate).zip variant_scores) st.2
        let ranked_sorted := pySortDesc (fun p => p.2) p.2
        (sparseRankLoop ranked_sorted 1 st.1, p.1)) st variant = st := by
    intro st variant
    simp only [List.map_nil, List.zip_nil_left, collectPositive, pySortDesc, List.foldl_nil,
      sparseRankLoop]
  intro variants
  unfold sparseAccum
  induction variants with
  | nil => rfl
  | cons v vs ih =>
    simp only [List.foldl_cons]
    simp only [List.map_nil, List.zip_nil_left, collectPositive, pySortDesc, List.foldl_nil,
      sparseRankLoop] at ih ⊢
    exact ih

theorem hybrid_retrieve_empty_scroll (log : ℚ → ℚ)
    (denseSearch : Str → ℤ → Except Unit (List Candidate))
    (ce : Str → List Str → Option (List ℚ)) (query : Str)
    (tk dl sp rn : Option ℤ) (qv : Option (List Str)) :
    hybrid_retrieve log denseSearch (Except.ok []) ce query tk dl sp rn qv
      = dense_only_retrieve log denseSearch ce query tk dl rn qv ∧
    hybrid_retrieve log denseSearch (Except.error ()) ce query tk dl sp rn qv
      = (if 0 < sp.getD settings.retrieval_sparse_pool then Except.error ()
         else dense_only_retrieve log denseSearch ce query tk dl rn qv) := by
  constructor
  · simp only [hybrid_retrieve, dense_only_retrieve, bind, Except.bind]
    cases hres : (_normalize_query_variants query qv).mapM
        (fun v => denseSearch v (orFalsy dl settings.retrieval_dense_limit)) with
    | error e => rfl
    | ok rs =>
      simp only []
      split
      · simp only [sparseAccum_nil, mergeSparse, List.map_nil, alGet, List.lookup_nil,
          Option.getD_none, add_zero]
      · simp only [pure, Except.pure, sparseAccum_nil, mergeSparse, List.map_nil, alGet,
          List.lookup_nil, Option.getD_none, add_zero]
  · simp only [hybrid_retrieve, dense_only_retrieve, bind, Except.bind]
    cases hres : (_normalize_query_variants query qv).mapM
        (fun v => denseSearch v (orFalsy dl settings.retrieval_dense_limit)) with
    | error e =>
      by_cases hsp : 0 < sp.getD settings.retrieval_sparse_pool
      · rw [if_pos hsp]
      · rw [if_neg hsp]
    | ok rs =>
      by_cases hsp : 0 < sp.getD settings.retrieval_sparse_pool
      · simp only [if_pos hsp]
      · simp only [if_neg hsp, pure, Except.pure, sparseAccum_nil, mergeSparse, List.map_nil,
          alGet, List.lookup_nil, Option.getD_none, add_zero]

/-- C4 (amended): with an empty sparse snapshot, `hybrid_retrieve` degrades to
an empty sparse contribution and still returns the dense-only results; but a
FAILING snapshot read (an exception raised during the scroll) propagates and
fails the whole call whenever the sparse pool is positive — it is not caught. -/
theorem hybrid_retrieve_sparse_degradation (log : ℚ → ℚ)
    (denseSearch : Str → ℤ → Except Unit (List Candidate))
    (ce : Str → List Str → Option (List ℚ)) (query : Str)
    (tk dl sp rn : Option ℤ) (qv : Option (List Str)) :
    hybrid_retrieve log denseSearch (Except.ok []) ce query tk dl sp rn qv
      = dense_only_retrieve log denseSearch ce query tk dl rn qv ∧
    hybrid_retrieve log denseSearch (Except.error ()) ce query tk dl sp rn qv
      = (if 0 < sp.getD settings.retrieval_sparse_pool then Except.error ()
         else dense_only_retrieve log denseSearch ce query tk dl rn qv) :=
  hybrid_retrieve_empty_scroll log denseSearch ce query tk dl sp rn qv

end Retr

/-- C4 counterexample: with one dense hit available and the sparse snapshot
read raising, `hybrid_retrieve` (at the default pool size 240) fails the whole
call instead of degrading to the dense-only results — the very results it
returns when the snapshot merely comes back empty. -/
theorem hybrid_retrieve_scroll_failure_cex :
    Retr.hybrid_retrieve (fun x => x)
        (fun _ _ => Except.ok [{ point_id := ("p1").toList, text := ("doc one").toList }])
        (Except.error ()) (fun _ _ => Option.none) (("q").toList)
        Option.none Option.none Option.none Option.none Option.none
      = Except.error () ∧
    Retr.hybrid_retrieve (fun x => x)
        (fun _ _ => Except.ok [{ point_id := ("p1").toList, text := ("doc one").toList }])
        (Except.ok []) (fun _ _ => Option.none) (("q").toList)
        Option.none Option.none Option.none Option.none Option.none
      = Retr.dense_only_retrieve (fun x => x)
        (fun _ _ => Except.ok [{ point_id := ("p1").toList, text := ("doc one").toList }])
        (fun _ _ => Option.none) (("q").toList)
        Option.none Option.none Option.none Option.none :=
  ⟨rfl, (Retr.hybrid_retrieve_empty_scroll (fun x => x)
      (fun _ _ => Except.ok [{ point_id := ("p1").toList, text := ("doc one").toList }])
      (fun _ _ => Option.none) (("q").toList)
      Option.none Option.none Option.none Option.none Option.none).1⟩

namespace Retr

/-- 0-based position of an id in a ranked id list (its first occurrence). -/
def idxOf (pid : Str) : List Str → ℕ
  | [] => 0
  | q :: rest => if q = pid then 0 else idxOf pid rest + 1

/-- "Candidate `a` ranks at least as well as `b`" in a ranked id list: whenever
`b` appears, `a` appears at the same or a better (smaller) 0-based position. -/
abbrev rankLe (l : List Str) (a b : Str) : Prop :=
  b ∈ l → a ∈ l ∧ idxOf a l ≤ idxOf b l

theorem alGet_alSet_self (m : List (Str × α)) (k : Str) (v : α) :
    alGet (alSet m k v) k = some v := by
  induction m with
  | nil =>
    show List.lookup k [(k, v)] = some v
    simp
  | cons p rest ih =>
    obtain ⟨k', v'⟩ := p
    by_cases h : k' = k
    · simp only [alSet, if_pos h]
      show List.lookup k ((k, v) :: rest) = some v
      simp
    · simp only [alSet, if_neg h]
      show List.lookup k ((k', v') :: alSet rest k v) = some v
      rw [List.lookup_cons]
      simp only [beq_eq_false_iff_ne.mpr (fun hc : k = k' => h hc.symm)]
      exact ih

theorem alGet_alSet_ne (m : List (Str × α)) {k k' : Str} (v : α) (h : k' ≠ k) :
    alGet (alSet m k v) k' = alGet m k' := by
  induction m with
  | nil =>
    show List.lookup k' [(k, v)] = List.lookup k' []
    rw [List.lookup_cons]
    simp [beq_eq_false_iff_ne.mpr h]
  | cons p rest ih =>
    obtain ⟨k0, v0⟩ := p
    by_cases h0 : k0 = k
    · simp only [alSet, if_pos h0]
      show List.lookup k' ((k, v) :: rest) = List.lookup k' ((k0, v0) :: rest)
      rw [List.lookup_cons, List.lookup_cons]
      have hbk : (k' == k) = false := beq_eq_false_iff_ne.mpr h
      have hb0 : (k' == k0) = false := beq_eq_false_iff_ne.mpr (fun hc => h (hc.trans h0))
      simp [hbk, hb0]
    · simp only [alSet, if_neg h0]
      show List.lookup k' ((k0, v0) :: alSet rest k v) = List.lookup k' ((k0, v0) :: rest)
      rw [List.lookup_cons, List.lookup_cons]
      by_cases h1 : k' = k0
      · simp [beq_iff_eq.mpr h1]
      · simp only [beq_eq_false_iff_ne.mpr h1]
        exact ih

theorem rrfRankLoop_not_mem {pid : Str} :
    ∀ (ids : List Str) (rank : ℕ) (m : List (Str × ℚ)), pid ∉ ids →
      alGet (rrfRankLoop ids rank m) pid = alGet m pid := by
  intro ids
  induction ids with
  | nil => intro rank m _; rfl
  | cons q rest ih =>
    intro rank m h
    have hne : pid ≠ q := fun hcon => h (hcon ▸ List.mem_cons_self q rest)
    have hrest : pid ∉ rest := fun hcon => h (List.mem_cons_of_mem q hcon)
    simp only [rrfRankLoop]
    rw [ih _ _ hrest, alGet_alSet_ne _ _ hne]

theorem rrfRankLoop_get {pid : Str} :
    ∀ (ids : List Str) (rank : ℕ) (m : List (Str × ℚ)), ids.Nodup →
      (alGet (rrfRankLoop ids rank m) pid).getD 0
        = (alGet m pid).getD 0
          + (if pid ∈ ids then 1 / (RRF_K + (rank : ℚ) + (idxOf pid ids : ℚ)) else 0) := by
  intro ids
  induction ids with
  | nil => intro rank m _; simp [rrfRankLoop]
  | cons q rest ih =>
    intro rank m hnd
    simp only [rrfRankLoop]
    by_cases h : pid = q
    · subst h
      have hrest : pid ∉ rest := (List.nodup_cons.mp hnd).1
      rw [rrfRankLoop_not_mem _ _ _ hrest, alGet_alSet_self]
      simp [idxOf]
    · rw [ih _ _ (List.nodup_cons.mp hnd).2]
      rw [alGet_alSet_ne _ _ h]
      by_cases hmem : pid ∈ rest
      · have hmem' : pid ∈ q :: rest := List.mem_cons_of_mem q hmem
        rw [if_pos hmem, if_pos hmem']
        have hidx : idxOf pid (q :: rest) = idxOf pid rest + 1 := by
          have hq : ¬q = pid := fun hc => h hc.symm
          simp [idxOf, hq]
        rw [hidx]
        push_cast
        ring_nf
      · have hmem' : pid ∉ q :: rest := by
          intro hc
          rcases List.mem_cons.mp hc with hc | hc
          · exact h hc
          · exact hmem hc
        rw [if_neg hmem, if_neg hmem']

theorem rrfAccum_get (pid : Str) :
    ∀ (ls : List (List Str)) (m0 : List (Str × ℚ)), (∀ l ∈ ls, l.Nodup) →
      (alGet (ls.foldl (fun m l => rrfRankLoop l 1 m) m0) pid).getD 0
        = (alGet m0 pid).getD 0
          + ((ls.map (fun l =>
              if pid ∈ l then 1 / (RRF_K + 1 + (idxOf pid l : ℚ)) else 0)).sum) := by
  intro ls
  induction ls with
  | nil => intro m0 _; simp
  | cons l rest ih =>
    intro m0 hnd
    simp only [List.foldl_cons, List.map_cons, List.sum_cons]
    rw [ih _ (fun x hx => hnd x (List.mem_cons_of_mem l hx))]
    rw [rrfRankLoop_get l 1 m0 (hnd l (List.mem_cons_self l rest))]
    push_cast
    ring

theorem rrf_contrib_monotone {l : List Str} {a b : Str} (h : rankLe l a b) :
    (if b ∈ l then 1 / (RRF_K + 1 + (idxOf b l : ℚ)) else 0)
      ≤ (if a ∈ l then 1 / (RRF_K + 1 + (idxOf a l : ℚ)) else 0) := by
  by_cases hb : b ∈ l
  · obtain ⟨ha, hle⟩ := h hb
    rw [if_pos hb, if_pos ha]
    have h1 : (0 : ℚ) < RRF_K + 1 + (idxOf a l : ℚ) := by
      unfold RRF_K
      positivity
    apply one_div_le_one_div_of_le h1
    have : ((idxOf a l : ℚ)) ≤ ((idxOf b l : ℚ)) := by exact_mod_cast hle
    linarith
  · rw [if_neg hb]
    by_cases ha : a ∈ l
    · rw [if_pos ha]
      have h1 : (0 : ℚ) < RRF_K + 1 + (idxOf a l : ℚ) := by
        unfold RRF_K
        positivity
      positivity
    · rw [if_neg ha]

/-- C3: `hybrid_retrieve`'s pre-rerank fusion accumulates
`1/(RRF_K + rank)` per ranked list, so a candidate ranking at least as well as
another in every per-variant dense and sparse rank list never receives a lower
fused score. -/
theorem rrf_fusion_monotone (denseLists sparseLists : List (List Str)) (a b : Str)
    (hd1 : ∀ l ∈ denseLists, l.Nodup) (hs1 : ∀ l ∈ sparseLists, l.Nodup)
    (hd2 : ∀ l ∈ denseLists, rankLe l a b) (hs2 : ∀ l ∈ sparseLists, rankLe l a b) :
    fused_rrf_score denseLists sparseLists b ≤ fused_rrf_score denseLists sparseLists a := by
  unfold fused_rrf_score rrfAccum
  rw [rrfAccum_get b denseLists [] hd1, rrfAccum_get b sparseLists [] hs1,
    rrfAccum_get a denseLists [] hd1, rrfAccum_get a sparseLists [] hs1]
  simp only [alGet, List.lookup_nil, Option.getD_none, zero_add]
  have hdle := List.sum_le_sum (fun l hl => rrf_contrib_monotone (hd2 l hl))
  have hsle := List.sum_le_sum (fun l hl => rrf_contrib_monotone (hs2 l hl))
  exact add_le_add hdle hsle

/-- Witness: in a pool where `a` is dense rank 1 and sparse rank 1 while `b`
is dense rank 2 and sparse-absent, `a`'s fused score is at least `b`'s. -/
theorem rrf_fusion_monotone_witness :
    fused_rrf_score [[("a").toList, ("b").toList]] [[("a").toList]] (("b").toList)
      ≤ fused_rrf_score [[("a").toList, ("b").toList]] [[("a").toList]] (("a").toList) :=
  rrf_fusion_monotone [[("a").toList, ("b").toList]] [[("a").toList]]
    (("a").toList) (("b").toList) (by decide) (by decide) (by decide) (by decide)

theorem denseRankLoop_fst :
    ∀ (cs : List Candidate) (rank : ℕ) (m : List (Str × ℚ)) (b : List (Str × Candidate)),
      (denseRankLoop cs rank m b).1 = rrfRankLoop (cs.map (fun c => c.point_id)) rank m := by
  intro cs
  induction cs with
  | nil => intro rank m b; rfl
  | cons c rest ih =>
    intro rank m b
    simp only [denseRankLoop, List.map_cons, rrfRankLoop]
    exact ih _ _ _

theorem sparseRankLoop_eq_rrf :
    ∀ (ps : List (Str × ℚ)) (rank : ℕ) (m : List (Str × ℚ)),
      sparseRankLoop ps rank m = rrfRankLoop (ps.map Prod.fst) rank m := by
  intro ps
  induction ps with
  | nil => intro rank m; rfl
  | cons p rest ih =>
    intro rank m
    obtain ⟨pid, s⟩ := p
    simp only [sparseRankLoop, List.map_cons, rrfRankLoop]
    exact ih _ _

end Retr

namespace Retr

theorem tfFold_count (tokens : List Str) (t : Str) :
    (tokens.foldl (fun acc term => fun t' => if t' = term then acc t' + 1 else acc t')
      (fun _ => 0)) t = tokens.count t := by
  suffices h : ∀ (acc : Str → ℕ),
      (tokens.foldl (fun acc term => fun t' => if t' = term then acc t' + 1 else acc t') acc) t
        = acc t + tokens.count t by
    simpa using h (fun _ => 0)
  induction tokens with
  | nil => intro acc; simp
  | cons x rest ih =>
    intro acc
    simp only [List.foldl_cons]
    rw [ih]
    rw [List.count_cons]
    by_cases hx : t = x
    · simp only [if_pos hx, beq_iff_eq.mpr hx.symm, if_true]
      omega
    · simp only [if_neg hx, beq_eq_false_iff_ne.mpr (fun hc : x = t => hx hc.symm),
        Bool.false_eq_true, if_false]
      omega

theorem dfFold_filter (docs : List (List Str)) (t : Str) :
    (docs.foldl (fun acc tokens => fun term => if term ∈ tokens then acc term + 1 else acc term)
      (fun _ => 0)) t = (docs.filter (fun d => t ∈ d)).length := by
  suffices h : ∀ (acc : Str → ℕ),
      (docs.foldl (fun acc tokens => fun term => if term ∈ tokens then acc term + 1 else acc term)
        acc) t = acc t + (docs.filter (fun d => t ∈ d)).length by
    simpa using h (fun _ => 0)
  induction docs with
  | nil => intro acc; simp
  | cons d rest ih =>
    intro acc
    simp only [List.foldl_cons, List.filter_cons]
    rw [ih]
    by_cases hd : t ∈ d
    · simp only [if_pos hd, decide_eq_true_eq, hd, if_true, List.length_cons]
      omega
    · simp only [if_neg hd, decide_eq_false hd, Bool.false_eq_true, if_false]

theorem foldl_guard_add (g : Str → ℕ) (f : Str → ℚ) :
    ∀ (l : List Str) (a : ℚ),
      l.foldl (fun score term => if g term = 0 then score else score + f term) a
        = a + (l.map (fun term => if g term = 0 then 0 else f term)).sum := by
  intro l
  induction l with
  | nil => intro a; simp
  | cons x rest ih =>
    intro a
    simp only [List.foldl_cons, List.map_cons, List.sum_cons]
    by_cases hx : g x = 0
    · rw [if_pos hx, if_pos hx, ih]
      ring
    · rw [if_neg hx, if_neg hx, ih]
      ring

/-- C5 (amended): for every pool of at most `10⁹` documents, `_bm25_scores`
computes exactly the specified BM25 formula (`k1 = 1.2`, `b = 0.75`,
`idf = log(1 + (N - df + 0.5)/(df + 0.5))`, score summed over query tokens
occurring in the document), and a token-less query scores `0.0` everywhere;
for larger pools the code's `1e-9` lower clamp on the average document length
can deviate from the formula. -/
theorem bm25_scores_spec (log : ℚ → ℚ) (query : Str) (docs : List Str)
    (hlen : docs.length ≤ 1000000000) :
    _bm25_scores log query docs = bm25_spec log query docs := by
  by_cases h0 : docs.isEmpty = true
  · have h0' : docs = [] := List.isEmpty_iff.mp h0
    subst h0'
    rfl
  · simp only [_bm25_scores, bm25_spec, h0, Bool.false_eq_true, if_false]
    by_cases h1 : (_tokenize query).isEmpty = true
    · have h1' : _tokenize query = [] := List.isEmpty_iff.mp h1
      rw [if_pos (by rw [h1']; rfl)]
      rw [h1']
      simp only [List.map_nil, List.sum_nil, List.map_map]
      rw [show ((fun _ => (0 : ℚ)) ∘ _tokenize) = (fun _ => (0 : ℚ)) from rfl]
    · rw [if_neg h1]
      have hne : docs ≠ [] := fun hc => h0 (by rw [hc]; rfl)
      have hn1 : 1 ≤ docs.length := List.length_pos.mpr hne
      have hmaxn : max 1 (docs.map _tokenize).length = docs.length := by
        rw [List.length_map]
        omega
      rw [hmaxn]
      apply List.map_congr_left
      intro tokens htok
      rw [foldl_guard_add (fun term =>
        (tokens.foldl (fun acc term => fun t => if t = term then acc t + 1 else acc t)
          (fun _ => 0)) term)]
      rw [zero_add]
      apply congrArg List.sum
      apply List.map_congr_left
      intro term _
      rw [tfFold_count, dfFold_filter]
      by_cases htf : tokens.count term = 0
      · rw [if_pos htf, if_pos htf]
      · rw [if_neg htf, if_neg htf]
        -- the term occurs: the document is non-empty and the pool average is ≥ 1e-9
        have hmem : term ∈ tokens := by
          rcases Nat.eq_zero_or_pos (tokens.count term) with hc | hc
          · exact absurd hc htf
          · exact List.count_pos_iff.mp (by
              have : 0 < List.count term tokens := hc
              exact this)
        have hlen1 : 1 ≤ tokens.length := List.length_pos.mpr (fun hc => by
          rw [hc] at hmem
          simp at hmem)
        have hmaxlen : max 1 tokens.length = tokens.length := by omega
        rw [hmaxlen]
        have hsum1 : (1 : ℚ) ≤ (((docs.map _tokenize).map List.length).sum : ℚ) := by
          have hmem2 : tokens.length ∈ (docs.map _tokenize).map List.length :=
            List.mem_map_of_mem List.length htok
          have := List.single_le_sum (fun (x : ℕ) _ => Nat.zero_le x) _ hmem2
          exact_mod_cast le_trans hlen1 this
        have hnq : (0 : ℚ) < ((docs.length : ℕ) : ℚ) := by exact_mod_cast hn1
        have havg : (1e-9 : ℚ) ≤ (((docs.map _tokenize).map List.length).sum : ℚ)
            / ((docs.length : ℕ) : ℚ) := by
          have hnd : ((docs.length : ℕ) : ℚ) ≤ 1000000000 := by exact_mod_cast hlen
          rw [show (1e-9 : ℚ) = 1 / 1000000000 from by norm_num]
          rw [div_le_div_iff₀ (by norm_num) hnq]
          nlinarith
        rw [max_eq_right havg]
        have havg0 : (0 : ℚ) < (((docs.map _tokenize).map List.length).sum : ℚ)
            / ((docs.length : ℕ) : ℚ) := lt_of_lt_of_le (by norm_num) havg
        have hfreq : (1 : ℚ) ≤ (tokens.count term : ℚ) := by
          have : 1 ≤ tokens.count term := Nat.one_le_iff_ne_zero.mpr htf
          exact_mod_cast this
        have hdiv0 : (0 : ℚ) ≤ (tokens.length : ℚ)
            / ((((docs.map _tokenize).map List.length).sum : ℚ) / ((docs.length : ℕ) : ℚ)) := by
          positivity
        have hdenom : (1e-9 : ℚ) ≤ (tokens.count term : ℚ)
            + 1.2 * (1 - 0.75 + 0.75 * ((tokens.length : ℚ)
              / ((((docs.map _tokenize).map List.length).sum : ℚ) / ((docs.length : ℕ) : ℚ)))) := by
          nlinarith
        rw [max_eq_right hdenom]
        norm_num


/-- Witness: on a two-document pool the code and the specified formula agree. -/
theorem bm25_scores_spec_witness :
    ([("alpha beta").toList, ("gamma").toList] : List Str).length ≤ 1000000000 ∧
    _bm25_scores (fun x => x) (("alpha").toList) [("alpha beta").toList, ("gamma").toList]
      = bm25_spec (fun x => x) (("alpha").toList) [("alpha beta").toList, ("gamma").toList] :=
  ⟨by decide, bm25_scores_spec (fun x => x) (("alpha").toList) _ (by decide)⟩

theorem tokless_sum (l : List Str) (ht : ∀ d ∈ l, _tokenize d = []) :
    ((l.map _tokenize).map List.length).sum = 0 := by
  induction l with
  | nil => rfl
  | cons x rest ih =>
    simp only [List.map_cons, List.sum_cons]
    rw [ht x (by simp), ih (fun d hd => ht d (List.mem_cons_of_mem x hd))]
    rfl

theorem bm25_code_head_gen (tail : List Str) (ht : ∀ d ∈ tail, _tokenize d = []) :
    (_bm25_scores (fun _ => 1) (("a").toList) (("a").toList :: tail)).head?
      = some ((2.2 : ℚ) /
          (1 + 1.2 * (0.25 + 0.75 *
            (1 / max 1e-9 (1 / ((tail.length + 1 : ℕ) : ℚ)))))) := by
  simp only [_bm25_scores]
  rw [show _tokenize (("a").toList) = [("a").toList] from rfl]
  simp only [List.isEmpty_cons, Bool.false_eq_true, if_false, List.map_cons]
  rw [show _tokenize (("a").toList) = [("a").toList] from rfl]
  rw [List.head?_cons]
  have hsum : (((([("a").toList].length : ℕ) :: List.map List.length (List.map _tokenize tail)).sum : ℕ) : ℚ) = 1 := by
    rw [List.sum_cons, tokless_sum tail ht]
    rfl
  have hlen : ([("a").toList] :: List.map _tokenize tail).length = tail.length + 1 := by
    rw [List.length_cons, List.length_map]
  rw [hlen, hsum]
  rw [show ((1 : ℕ) ⊔ (tail.length + 1)) = tail.length + 1 from max_eq_right (by omega)]
  simp only [List.foldl_cons, List.foldl_nil]
  norm_num
  have hi : (0 : ℚ) ≤ ((1 : ℚ) / 1000000000 ⊔ (((tail.length : ℚ)) + 1)⁻¹)⁻¹ := by
    positivity
  rw [max_eq_right (by nlinarith :
    (1 : ℚ) / 1000000000 ≤ 1 + 6 / 5 * (1 / 4 + 3 / 4 * ((1 : ℚ) / 1000000000 ⊔ (((tail.length : ℚ)) + 1)⁻¹)⁻¹))]

theorem bm25_spec_head_gen (tail : List Str) (ht : ∀ d ∈ tail, _tokenize d = []) :
    (bm25_spec (fun _ => 1) (("a").toList) (("a").toList :: tail)).head?
      = some ((2.2 : ℚ) /
          (1 + 1.2 * (0.25 + 0.75 * (1 / (1 / ((tail.length + 1 : ℕ) : ℚ)))))) := by
  simp only [bm25_spec, List.map_cons]
  rw [show _tokenize (("a").toList) = [("a").toList] from rfl]
  rw [List.head?_cons]
  have hsum : (((([("a").toList].length : ℕ) :: List.map List.length (List.map _tokenize tail)).sum : ℕ) : ℚ) = 1 := by
    rw [List.sum_cons, tokless_sum tail ht]
    rfl
  have hlen : ([("a").toList] :: List.map _tokenize tail).length = tail.length + 1 := by
    rw [List.length_cons, List.length_map]
  rw [hlen, hsum]
  simp only [List.map_cons, List.map_nil, List.sum_cons, List.sum_nil]
  rw [show List.count (("a").toList) [("a").toList] = 1 from rfl]
  norm_num

/-- A pool of one short document and `10⁹` empty ones: large enough for the
code's `1e-9` lower clamp on the average document length to bite. -/
def bm25CexDocs : List Str := ("a").toList :: List.replicate 1000000000 ([] : Str)

/-- C5 counterexample: on a pool of the document `"a"` plus `10⁹` empty
documents (pool size `10⁹ + 1`), `_bm25_scores` (with `log` fixed to the
constant `1`) clamps the true average document length `1/(10⁹+1)` up to
`1e-9`, so the first document scores `22/9000000013` instead of the
`22/9000000022` demanded by the claimed BM25 formula. -/
theorem bm25_scores_claim_cex :
    _bm25_scores (fun _ => 1) (("a").toList) bm25CexDocs
      ≠ bm25_spec (fun _ => 1) (("a").toList) bm25CexDocs := by
  intro h
  have ht : ∀ d ∈ List.replicate 1000000000 ([] : Str), _tokenize d = [] := by
    intro d hd
    rw [List.eq_of_mem_replicate hd]
    rfl
  have h1 := bm25_code_head_gen (List.replicate 1000000000 ([] : Str)) ht
  have h2 := bm25_spec_head_gen (List.replicate 1000000000 ([] : Str)) ht
  rw [List.length_replicate] at h1 h2
  rw [show bm25CexDocs = ("a").toList :: List.replicate 1000000000 ([] : Str) from rfl] at h
  rw [h, h2] at h1
  have h3 := Option.some.inj h1
  rw [show ((1000000000 + 1 : ℕ) : ℚ) = 1000000001 from by norm_num] at h3
  rw [show ((1e-9 : ℚ) ⊔ (1 / (1000000001 : ℚ))) = 1e-9 from max_eq_left (by norm_num)] at h3
  norm_num at h3

end Retr

namespace Ctx

/-- Python's `int()` on a float/rational: truncation toward zero. -/
def pyInt (q : ℚ) : ℤ := if q < 0 then -⌊-q⌋ else ⌊q⌋

/-- A retrieval-source dict as `context.py` manipulates it: the `snippet` and
`score` keys it reads, and the `context_tokens` key `assemble_context` adds. -/
structure SourceDict where
  snippet : Str := []
  score : ℚ := 0
  context_tokens : ℕ := 0
deriving DecidableEq, Inhabited, Repr

/-- `approximate_token_count(text)` from `context.py`: `max(max(1, len//4),
len(TOKEN_RE.findall(...)))` on the stripped text, `0` when it strips empty
(`TOKEN_RE = [A-Za-z0-9_]+`, our `findTokens`). -/
def approximate_token_count (text : Str) : ℕ :=
  let normalized := pyStrip text
  if normalized.isEmpty then 0
  else max (max 1 (normalized.length / 4)) (findTokens normalized).length

/-- `trimmed.rsplit(" ", 1)[0]` for a `trimmed` containing a space: everything
before the last space. -/
def beforeLastSpace (s : Str) : Str :=
  ((s.reverse.dropWhile (fun c => !(c == ' '))).drop 1).reverse

/-- `_truncate_to_token_budget(text, max_tokens)` from `context.py`. -/
def _truncate_to_token_budget (text : Str) (max_tokens : ℤ) : Str :=
  let normalized := pyStrip text
  if normalized.isEmpty ∨ max_tokens ≤ 0 then []
  else if (approximate_token_count normalized : ℤ) ≤ max_tokens then normalized
  else
    let max_chars : ℤ := max 24 (max_tokens * 4)
    let trimmed := pyStrip (normalized.take max_chars.toNat)
    let trimmed := if trimmed.contains ' ' then pyStrip (beforeLastSpace trimmed) else trimmed
    let trimmed := if trimmed.isEmpty then pyStrip (normalized.take max_chars.toNat) else trimmed
    trimmed ++ ("...").toList

/-- `_sentence_chunks(text)`: the stripped non-empty pieces of the
`SENTENCE_RE` split. -/
def _sentence_chunks (text : Str) : List Str :=
  ((splitSentences text).map pyStrip).filter (fun p => !p.isEmpty)

/-- `_query_terms(query)`: the lower-cased `TOKEN_RE` tokens of length `> 2`
(a Python set; only membership is ever used, so a list is a faithful model). -/
def _query_terms (query : Str) : List Str :=
  ((findTokens query).filter (fun t => 2 < t.length)).map lowerStr

/-- `_relevance_score(sentence, terms)` from `context.py`, in exact rational
arithmetic. -/
def _relevance_score (sentence : Str) (terms : List Str) : ℚ :=
  let tokens := (findTokens sentence).map lowerStr
  if tokens.isEmpty then 0
  else
    let overlap : ℕ := (tokens.filter (fun t => decide (t ∈ terms))).length
    let density : ℚ := (overlap : ℚ) / ((max 1 tokens.length : ℕ) : ℚ)
    let length_bonus : ℚ := min 1 ((tokens.length : ℚ) / 24)
    2 * (overlap : ℚ) + 2.5 * density + length_bonus

/-- One step of the stable descending sort on `(score, -idx)` keys used by
`_compress_snippet`: insert `x` before the first entry whose key is no
larger. -/
def insertRanked (x : ℚ × ℕ × Str) : List (ℚ × ℕ × Str) → List (ℚ × ℕ × Str)
  | [] => [x]
  | y :: ys =>
    if decide (y.1 < x.1) ∨ (x.1 = y.1 ∧ x.2.1 ≤ y.2.1) then x :: y :: ys
    else y :: insertRanked x ys

/-- `ranked.sort(key=lambda item: (item[0], -item[1]), reverse=True)`: the
keys are pairwise distinct (indices are unique), so insertion sort computes
exactly Python's stable sort. -/
def sortRanked (l : List (ℚ × ℕ × Str)) : List (ℚ × ℕ × Str) :=
  l.foldr insertRanked []

/-- `enumerate(sentences)` paired into `( _relevance_score(s, terms), idx, s)`
triples, starting at index `i`. -/
def rankSentences (terms : List Str) : ℕ → List Str → List (ℚ × ℕ × Str)
  | _, [] => []
  | i, s :: rest => (_relevance_score s terms, i, s) :: rankSentences terms (i + 1) rest

/-- The greedy sentence-selection loop of `_compress_snippet`: walk the ranked
triples accumulating `(selected_indices, selected_tokens)`. -/
def selectSentences (max_tokens min_tokens target_tokens : ℤ) :
    List (ℚ × ℕ × Str) → List ℕ × ℕ → List ℕ × ℕ
  | [], st => st
  | (score, idx, sentence) :: rest, (sel, tok) =>
    let sentence_tokens := approximate_token_count sentence
    if sentence_tokens = 0 then selectSentences max_tokens min_tokens target_tokens rest (sel, tok)
    else if score ≤ 0 ∧ min_tokens ≤ (tok : ℤ) then
      selectSentences max_tokens min_tokens target_tokens rest (sel, tok)
    else if max_tokens < (tok : ℤ) + sentence_tokens ∧ min_tokens ≤ (tok : ℤ) then
      selectSentences max_tokens min_tokens target_tokens rest (sel, tok)
    else
      let sel := sel ++ [idx]
      let tok := tok + sentence_tokens
      if target_tokens ≤ (tok : ℤ) then (sel, tok)
      else selectSentences max_tokens min_tokens target_tokens rest (sel, tok)

/-- `_compress_snippet(snippet, query, max_tokens, min_tokens)` from
`context.py`, returning `(text, compressed?)`. -/
def _compress_snippet (snippet query : Str) (max_tokens min_tokens : ℤ) : Str × Bool :=
  let normalized := pyStrip snippet
  if normalized.isEmpty then ([], false)
  else
    let baseline := _truncate_to_token_budget normalized max_tokens
    if !settings.chat_context_compression_enabled then
      (baseline, decide (baseline ≠ normalized))
    else
      let original_tokens := approximate_token_count normalized
      if (original_tokens : ℤ) ≤ max_tokens then (normalized, false)
      else
        let sentences := _sentence_chunks normalized
        if sentences.length ≤ 1 then (baseline, decide (baseline ≠ normalized))
        else
          let terms := _query_terms query
          let ranked := sortRanked (rankSentences terms 0 sentences)
          let ratio : ℚ := max 0.25 (min 1 settings.chat_context_compression_target_ratio)
          let target_tokens : ℤ :=
            max min_tokens (min max_tokens (pyInt ((original_tokens : ℚ) * ratio)))
          let (selected_indices, _) :=
            selectSentences max_tokens min_tokens target_tokens ranked ([], 0)
          if selected_indices.isEmpty then (baseline, decide (baseline ≠ normalized))
          else
            let sorted_indices := selected_indices.foldl (fun l i => Citations.insertSortedNat i l) []
            let compressed := pyStrip (joinSep [' ']
              (sorted_indices.map (fun idx => sentences.getD idx [])))
            let compressed := _truncate_to_token_budget compressed max_tokens
            (compressed, decide (compressed ≠ normalized))

/-- The even/odd split of `_lost_middle_order`, carrying the running index. -/
def lostMiddleGo : List SourceDict → ℕ → List SourceDict × List SourceDict
  | [], _ => ([], [])
  | x :: xs, idx =>
    let (f, t) := lostMiddleGo xs (idx + 1)
    if idx % 2 = 0 then (x :: f, t) else (f, x :: t)

/-- `_lost_middle_order(candidates)` from `context.py`: even-indexed items in
order, then the odd-indexed items reversed. -/
def _lost_middle_order (candidates : List SourceDict) : List SourceDict :=
  let (front, tail) := lostMiddleGo candidates 0
  front ++ tail.reverse

/-- The snippet filter at the head of `assemble_context`: drop sources whose
snippet strips empty, clamp the rest to `safe_char_limit` chars and re-strip. -/
def filterSources (safe_char_limit : ℕ) : List SourceDict → List SourceDict
  | [] => []
  | s :: ss =>
    let snippet := pyStrip s.snippet
    if snippet.isEmpty then filterSources safe_char_limit ss
    else { s with snippet := pyStrip (snippet.take safe_char_limit) } ::
      filterSources safe_char_limit ss

/-- One step of `sorted(filtered, key=score, reverse=True)` (stable): insert
before the first entry with a strictly smaller score. -/
def insertByScore (x : SourceDict) : List SourceDict → List SourceDict
  | [] => [x]
  | y :: ys => if decide (y.score < x.score) then x :: y :: ys else y :: insertByScore x ys

/-- `sorted(filtered, key=lambda item: item["score"], reverse=True)`, as a
stable insertion sort (earlier equal-score items stay first). -/
def sortByScoreDesc (l : List SourceDict) : List SourceDict :=
  l.foldr insertByScore []

/-- `ContextAssembly` from `context.py`. -/
structure ContextAssembly where
  sources : List SourceDict
  context_blocks : Str
  token_budget : ℤ
  token_used : ℕ
  compressed_sources : ℕ
deriving Repr

/-- The dynamic token budget computed by `assemble_context` before the walk:
`max(min_tokens_per_source, int(total_ctx*ratio) - reserved - prompt_tokens)`. -/
def token_budget_of (query history : Str) : ℤ :=
  let total_ctx : ℤ := max 1024 settings.chat_model_context_tokens
  let ratio : ℚ := max 0.25 (min 0.95 settings.chat_context_budget_ratio)
  let reserved : ℤ := max 0 settings.chat_context_reserved_tokens
  let prompt_tokens : ℕ := approximate_token_count query + approximate_token_count history
  let min_tokens_per_source : ℤ := max 24 settings.chat_context_min_tokens_per_source
  max min_tokens_per_source (pyInt ((total_ctx : ℚ) * ratio) - reserved - (prompt_tokens : ℤ))

/-- The main selection loop of `assemble_context` over the arranged sources,
threading `(chosen, used_tokens, compressed_sources)`; returning without
recursing models `break`. -/
def contextWalk (query : Str) (token_budget min_t max_t : ℤ) (safe_max : ℕ) :
    List SourceDict → List SourceDict × ℕ × ℕ → List SourceDict × ℕ × ℕ
  | [], st => st
  | source :: rest, (chosen, used, comp) =>
    if safe_max ≤ chosen.length then (chosen, used, comp)
    else
      let remaining : ℤ := token_budget - (used : ℤ)
      if remaining < min_t ∧ ¬chosen.isEmpty then (chosen, used, comp)
      else
        let source_budget : ℤ := min max_t (max min_t remaining)
        let sc := _compress_snippet source.snippet query source_budget min_t
        let snippet := pyStrip sc.1
        if snippet.isEmpty then
          contextWalk query token_budget min_t max_t safe_max rest (chosen, used, comp)
        else
          let snippet_tokens := approximate_token_count snippet
          if remaining < (snippet_tokens : ℤ) then
            if ¬chosen.isEmpty then
              contextWalk query token_budget min_t max_t safe_max rest (chosen, used, comp)
            else
              let snippet2 := _truncate_to_token_budget snippet remaining
              let st2 := approximate_token_count snippet2
              if st2 = 0 then
                contextWalk query token_budget min_t max_t safe_max rest (chosen, used, comp)
              else
                contextWalk query token_budget min_t max_t safe_max rest
                  (chosen ++ [{ source with snippet := snippet2, context_tokens := st2 }],
                    used + st2, comp + (if sc.2 then 1 else 0))
          else
            contextWalk query token_budget min_t max_t safe_max rest
              (chosen ++ [{ source with snippet := snippet, context_tokens := snippet_tokens }],
                used + snippet_tokens, comp + (if sc.2 then 1 else 0))

/-- The `if not chosen and ranked:` single-candidate fallback of
`assemble_context`. -/
def contextFallback (ranked : List SourceDict) (token_budget max_t : ℤ)
    (st : List SourceDict × ℕ × ℕ) : List SourceDict × ℕ × ℕ :=
  match st.1, ranked with
  | [], fallback_source :: _ =>
    let snippet := _truncate_to_token_budget fallback_source.snippet (min max_t token_budget)
    let snippet_tokens := approximate_token_count snippet
    ([{ fallback_source with snippet := snippet, context_tokens := snippet_tokens }],
      snippet_tokens, if decide (snippet ≠ fallback_source.snippet) then 1 else 0)
  | _, _ => st

/-- The `"\n\n---\n\n"`-joined `[Source i]` blocks of `assemble_context`. -/
def contextBlocks (chosen : List SourceDict) : Str :=
  joinSep (("\n\n---\n\n").toList)
    (((chosen.enum.filter (fun p => !(pyStrip p.2.snippet).isEmpty)).map
      (fun p => ("[Source ").toList ++ natToStr (p.1 + 1) ++ ("]\n").toList ++
        pyStrip p.2.snippet)))

/-- `assemble_context(query, history, sources, max_sources,
per_source_char_limit)` from `context.py`. -/
def assemble_context (query history : Str) (sources : List SourceDict)
    (max_sources per_source_char_limit : ℤ) : ContextAssembly :=
  let safe_max_sources : ℤ := max 1 max_sources
  let safe_char_limit : ℤ := max 120 per_source_char_limit
  let filtered := filterSources safe_char_limit.toNat sources
  let ranked := sortByScoreDesc filtered
  let arranged := _lost_middle_order ranked
  let token_budget := token_budget_of query history
  let min_tokens_per_source : ℤ := max 24 settings.chat_context_min_tokens_per_source
  let max_tokens_per_source : ℤ :=
    max min_tokens_per_source settings.chat_context_max_tokens_per_source
  let st := contextWalk query token_budget min_tokens_per_source max_tokens_per_source
    safe_max_sources.toNat arranged ([], 0, 0)
  let st := contextFallback ranked token_budget max_tokens_per_source st
  { sources := st.1
    context_blocks := contextBlocks st.1
    token_budget := token_budget
    token_used := st.2.1
    compressed_sources := st.2.2 }

end Ctx
namespace Ctx

theorem pyInt_natCast (n : ℕ) : pyInt ((n : ℚ)) = (n : ℤ) := by
  unfold pyInt
  rw [if_neg (not_lt.mpr (Nat.cast_nonneg n))]
  exact_mod_cast Int.floor_natCast n

theorem token_budget_of_eval (query history : Str) :
    token_budget_of query history
      = max 80 (4944 - (approximate_token_count query : ℤ)
          - (approximate_token_count history : ℤ)) := by
  simp only [token_budget_of]
  have h2 : (max 0.25 (min 0.95 settings.chat_context_budget_ratio) : ℚ) = 3 / 4 := by
    rw [show settings.chat_context_budget_ratio = 0.75 from rfl]
    rw [min_eq_right (by norm_num), max_eq_right (by norm_num)]
    norm_num
  rw [h2]
  rw [show (max 1024 settings.chat_model_context_tokens : ℤ) = 8192 from by decide]
  rw [show ((8192 : ℤ) : ℚ) * (3 / 4) = ((6144 : ℕ) : ℚ) from by push_cast; norm_num]
  rw [pyInt_natCast]
  rw [show (max 0 settings.chat_context_reserved_tokens : ℤ) = 1200 from rfl]
  rw [show (max 24 settings.chat_context_min_tokens_per_source : ℤ) = 80 from rfl]
  push_cast
  omega

theorem token_budget_of_nonneg (query history : Str) : 0 ≤ token_budget_of query history := by
  rw [token_budget_of_eval]
  exact le_trans (by norm_num) (le_max_left _ _)

theorem contextWalk_length_le (query : Str) (tb mn mx : ℤ) (sm : ℕ) :
    ∀ (l : List SourceDict) (chosen : List SourceDict) (used comp : ℕ),
      chosen.length ≤ sm →
      (contextWalk query tb mn mx sm l (chosen, used, comp)).1.length ≤ sm := by
  intro l
  induction l with
  | nil => intro chosen used comp h; exact h
  | cons source rest ih =>
    intro chosen used comp h
    simp only [contextWalk]
    generalize _compress_snippet source.snippet query (min mx (max mn (tb - (used : ℤ)))) mn = sc
    generalize pyStrip sc.1 = sn
    generalize approximate_token_count sn = st1
    generalize _truncate_to_token_budget sn (tb - (used : ℤ)) = sn2
    generalize approximate_token_count sn2 = st2
    split_ifs with h1 h2 h3 h4 h5 h6
    all_goals first
      | exact h
      | exact ih _ _ _ h
      | (refine ih _ _ _ ?_
         simp only [List.length_append, List.length_cons, List.length_nil]
         omega)

theorem contextWalk_invariant (query : Str) (tb mn mx : ℤ) (sm : ℕ) (htb : 0 ≤ tb) :
    ∀ (l : List SourceDict) (chosen : List SourceDict) (used comp : ℕ),
      ((chosen = [] ∧ used = 0) ∨ ((used : ℤ) ≤ tb) ∨ chosen.length = 1) →
      (((contextWalk query tb mn mx sm l (chosen, used, comp)).2.1 : ℤ) ≤ tb
        ∨ (contextWalk query tb mn mx sm l (chosen, used, comp)).1.length = 1) := by
  intro l
  induction l with
  | nil =>
    intro chosen used comp h
    rcases h with ⟨_, h0⟩ | h | h
    · left; rw [h0]; exact_mod_cast htb
    · left; exact h
    · right; exact h
  | cons source rest ih =>
    intro chosen used comp h
    have hbase : ((used : ℤ) ≤ tb) ∨ chosen.length = 1 := by
      rcases h with ⟨_, h0⟩ | h | h
      · left; rw [h0]; exact_mod_cast htb
      · left; exact h
      · right; exact h
    simp only [contextWalk]
    generalize _compress_snippet source.snippet query (min mx (max mn (tb - (used : ℤ)))) mn = sc
    generalize pyStrip sc.1 = sn
    generalize approximate_token_count sn = st1
    generalize _truncate_to_token_budget sn (tb - (used : ℤ)) = sn2
    generalize approximate_token_count sn2 = st2
    split_ifs with h1 h2 h3 h4 h5 h6
    all_goals first
      | exact hbase
      | exact ih _ _ _ h
      | (refine ih _ _ _ (Or.inr (Or.inr ?_))
         rw [List.isEmpty_iff.mp h5]
         rfl)
      | (refine ih _ _ _ (Or.inr (Or.inl ?_))
         push_cast
         have h4le := not_lt.mp h4
         omega)

theorem contextFallback_cases (ranked : List SourceDict) (tb mx : ℤ)
    (st : List SourceDict × ℕ × ℕ) :
    (contextFallback ranked tb mx st).1.length = 1
    ∨ contextFallback ranked tb mx st = st := by
  rcases st with ⟨chosen, used, comp⟩
  cases chosen with
  | cons x xs => exact Or.inr rfl
  | nil =>
    cases ranked with
    | nil => exact Or.inr rfl
    | cons f r => exact Or.inl rfl

/-- C6 (amended): `assemble_context` returns at most `max(1, max_sources)`
sources: the cap `safe_max_sources = max(1, max_sources)` is clamped below by
one, so a non-positive `max_sources` still admits one source. -/
theorem assemble_context_max_sources (query history : Str) (sources : List SourceDict)
    (max_sources per_source_char_limit : ℤ) :
    ((assemble_context query history sources max_sources
        per_source_char_limit).sources.length : ℤ) ≤ max 1 max_sources := by
  have h1 : (1 : ℤ) ≤ max 1 max_sources := le_max_left _ _
  have hsm : ((max 1 max_sources).toNat : ℤ) = max 1 max_sources :=
    Int.toNat_of_nonneg (by omega)
  have hmain : ∀ (R A : List SourceDict) (tb mn mx : ℤ),
      ((contextFallback R tb mx (contextWalk query tb mn mx (max 1 max_sources).toNat A
          ([], 0, 0))).1.length : ℤ) ≤ max 1 max_sources := by
    intro R A tb mn mx
    have hwalk := contextWalk_length_le query tb mn mx (max 1 max_sources).toNat A [] 0 0
      (by simp)
    rcases contextFallback_cases R tb mx
        (contextWalk query tb mn mx (max 1 max_sources).toNat A ([], 0, 0)) with hf | hf
    · rw [hf]; omega
    · rw [hf]; omega
  exact hmain _ _ _ _ _

/-- C1 (amended): the context budget is respected whenever the assembly keeps
more than one source: always `token_used ≤ token_budget` or
`len(sources) ≤ 1`. A single-source assembly can exceed the budget — via the
single-candidate fallback, and also via the main walk when its very first
chosen candidate is truncated to the remaining budget, because
`_truncate_to_token_budget` cuts to `4 * max_tokens` characters while
`approximate_token_count` counts `max(chars // 4, words)`, which the word
count can exceed. -/
theorem assemble_context_token_budget (query history : Str) (sources : List SourceDict)
    (max_sources per_source_char_limit : ℤ) :
    ((assemble_context query history sources max_sources
        per_source_char_limit).token_used : ℤ)
      ≤ (assemble_context query history sources max_sources per_source_char_limit).token_budget
    ∨ (assemble_context query history sources max_sources
        per_source_char_limit).sources.length ≤ 1 := by
  have hmain : ∀ (R A : List SourceDict) (mn mx : ℤ) (sm : ℕ),
      (((contextFallback R (token_budget_of query history) mx
          (contextWalk query (token_budget_of query history) mn mx sm A
            ([], 0, 0))).2.1 : ℤ) ≤ token_budget_of query history
        ∨ (contextFallback R (token_budget_of query history) mx
            (contextWalk query (token_budget_of query history) mn mx sm A
              ([], 0, 0))).1.length ≤ 1) := by
    intro R A mn mx sm
    rcases contextFallback_cases R (token_budget_of query history) mx
        (contextWalk query (token_budget_of query history) mn mx sm A ([], 0, 0)) with hf | hf
    · right; omega
    · rw [hf]
      rcases contextWalk_invariant query (token_budget_of query history) mn mx sm
          (token_budget_of_nonneg query history) A [] 0 0 (Or.inl ⟨rfl, rfl⟩) with hw | hw
      · left; exact hw
      · right; omega
  exact hmain _ _ _ _ _

theorem dropWhile_replicate_not (p : Char → Bool) (c : Char) (h : p c = false) (n : ℕ) :
    List.dropWhile p (List.replicate n c) = List.replicate n c := by
  cases n with
  | zero => rfl
  | succ k =>
    rw [List.replicate_succ, List.dropWhile_cons, h]
    simp

theorem pyStrip_replicate (c : Char) (h : pyIsSpace c = false) (n : ℕ) :
    pyStrip (List.replicate n c) = List.replicate n c := by
  unfold pyStrip
  rw [dropWhile_replicate_not pyIsSpace c h, List.reverse_replicate,
    dropWhile_replicate_not pyIsSpace c h, List.reverse_replicate]

theorem tokenRunsAux_replicate_word (c : Char) (h : isWordChar c = true) :
    ∀ (n : ℕ) (acc : Str), acc ≠ [] →
      tokenRunsAux (List.replicate n c) acc = [acc.reverse ++ List.replicate n c] := by
  intro n
  induction n with
  | zero =>
    intro acc hacc
    simp [tokenRunsAux, List.isEmpty_iff, hacc]
  | succ k ih =>
    intro acc hacc
    rw [List.replicate_succ]
    show tokenRunsAux (c :: List.replicate k c) acc = _
    simp only [tokenRunsAux, h, if_true]
    rw [ih (c :: acc) (by simp)]
    simp [List.replicate_succ, List.reverse_cons, List.append_assoc]

theorem findTokens_replicate_word (c : Char) (h : isWordChar c = true) (n : ℕ) (hn : n ≠ 0) :
    findTokens (List.replicate n c) = [List.replicate n c] := by
  obtain ⟨k, rfl⟩ := Nat.exists_eq_succ_of_ne_zero hn
  unfold findTokens
  rw [List.replicate_succ]
  show tokenRunsAux (c :: List.replicate k c) [] = _
  simp only [tokenRunsAux, h, if_true]
  rw [tokenRunsAux_replicate_word c h k [c] (by simp)]
  simp [List.replicate_succ]

/-- A 20000-character run of `x`: its prompt-token estimate `max(20000 // 4,
1) = 5000` swallows the whole context budget. -/
def cexQuery : Str := List.replicate 20000 'x'

/-- `"a " * 161` — 161 one-letter words whose estimated token count `161`
exceeds the minimum budget `80`. -/
def cexSnippet : Str := (List.replicate 161 ['a', ' ']).flatten

def cexSources : List SourceDict := [{ snippet := cexSnippet }]

theorem approximate_token_count_replicate_word (c : Char) (hw : isWordChar c = true)
    (hs : pyIsSpace c = false) (n : ℕ) (hn : n ≠ 0) :
    approximate_token_count (List.replicate n c) = max (max 1 (n / 4)) 1 := by
  simp only [approximate_token_count]
  rw [pyStrip_replicate c hs n]
  rw [if_neg (fun hc => hn (by
    have hlen := congrArg List.length (List.isEmpty_iff.mp hc)
    simpa using hlen))]
  rw [List.length_replicate, findTokens_replicate_word c hw n hn, List.length_singleton]

theorem cexQuery_tokens : approximate_token_count cexQuery = 5000 := by
  rw [show cexQuery = List.replicate 20000 'x' from rfl]
  rw [approximate_token_count_replicate_word 'x' (by decide) (by decide) 20000 (by norm_num)]
  decide

theorem cex_budget : token_budget_of cexQuery [] = 80 := by
  rw [token_budget_of_eval, cexQuery_tokens]
  decide

set_option maxRecDepth 200000 in
/-- C1 counterexample: with a query of 20000 `x`s the budget bottoms out at
`80` tokens; a single candidate of 161 one-letter words is chosen by the main
walk (no fallback: the walk's result is non-empty) through the first-candidate
truncation path, yet the truncated snippet still counts 158 tokens, so
`token_used > token_budget`. The walk shown is the one `assemble_context`
runs: `min_tokens = 80`, `max_tokens = 260`, `safe_max_sources = 4`,
`safe_char_limit = 400`. -/
theorem assemble_context_budget_cex :
    (contextWalk cexQuery (token_budget_of cexQuery []) 80 260 4
        (_lost_middle_order (sortByScoreDesc (filterSources 400 cexSources))) ([], 0, 0)).1 ≠ []
    ∧ (assemble_context cexQuery [] cexSources 4 400).token_budget
        < ((assemble_context cexQuery [] cexSources 4 400).token_used : ℤ) := by
  constructor
  · rw [cex_budget]
    decide
  · simp only [assemble_context]
    rw [cex_budget]
    decide

set_option maxRecDepth 200000 in
/-- C6 counterexample: with `max_sources = 0` and one usable source,
`assemble_context` still returns one source (`safe_max_sources = max(1, 0) =
1`), so `len(sources) ≤ max_sources` fails for `max_sources = 0`. -/
theorem assemble_context_max_sources_cex :
    ¬ (((assemble_context [] [] [{ snippet := ("hello world").toList }]
        0 0).sources.length : ℤ) ≤ 0) := by
  have hb : token_budget_of [] [] = 4944 := by
    rw [token_budget_of_eval]
    decide
  simp only [assemble_context]
  rw [hb]
  decide

end Ctx
namespace Chunking

/-- A metadata value in a chunk's `metadata` dict: a string, an int, or a
list of strings. -/
inductive MetaVal where
  | s (v : Str)
  | n (v : ℕ)
  | ls (v : List Str)
deriving Repr

/-- `Chunk` from `chunking.py`. -/
structure Chunk where
  text : Str
  metadata : List (Str × MetaVal)
  start_char : ℕ
  end_char : ℕ
deriving Repr

/-- `SENTENCE_SPLIT_RE = (?<=[.!?])\s+` as a two-mode scanner (mode 1 is
inside a separator run opened by whitespace after `[.!?]`); `p` is the
previous character and `acc` the current piece, reversed. -/
def splitSentOnlyAux : ℕ → Option Char → Str → Str → List Str
  | _, _, [], acc => [acc.reverse]
  | 1, _, c :: cs, acc =>
    if pyIsSpace c then splitSentOnlyAux 1 (some c) cs acc
    else splitSentOnlyAux 0 (some c) cs (c :: acc)
  | _, p, c :: cs, acc =>
    if (p.elim false isSentEnd) && pyIsSpace c then
      acc.reverse :: splitSentOnlyAux 1 (some c) cs []
    else splitSentOnlyAux 0 (some c) cs (c :: acc)

/-- `SENTENCE_SPLIT_RE.split(s)`. -/
def splitSentOnly (s : Str) : List Str := splitSentOnlyAux 0 Option.none s []

/-- `[p.strip() for p in SENTENCE_SPLIT_RE.split(s) if p.strip()]`. -/
def sentencePieces (s : Str) : List Str :=
  ((splitSentOnly s).map pyStrip).filter (fun p => !p.isEmpty)

/-- The word-wrap fallback loop of `_split_long_segment`, walking the words
with the running buffer and cursor. -/
def wordWrapGo (max_chunk_chars : ℤ) : List Str → Str → ℕ → List (Str × ℕ × ℕ)
  | [], buf, cursor => if buf.isEmpty then [] else [(buf, cursor, cursor + buf.length)]
  | word :: rest, buf, cursor =>
    let candidate := pyStrip (buf ++ ' ' :: word)
    if ¬buf.isEmpty ∧ max_chunk_chars < (candidate.length : ℤ) then
      let part := pyStrip buf
      (part, cursor, cursor + part.length) ::
        wordWrapGo max_chunk_chars rest word (cursor + part.length + 1)
    else wordWrapGo max_chunk_chars rest candidate cursor

/-- The sentence-packing loop of `_split_long_segment`, walking the sentence
pieces with the running `current` text, its start, and the cursor. -/
def sentPackGo (max_chunk_chars : ℤ) : List Str → Str → ℕ → ℕ → List (Str × ℕ × ℕ)
  | [], current, current_start, _ =>
    if (pyStrip current).isEmpty then []
    else
      let part := pyStrip current
      [(part, current_start, current_start + part.length)]
  | sentence :: rest, current, current_start, cursor =>
    let candidate := if current.isEmpty then sentence else pyStrip (current ++ ' ' :: sentence)
    if ¬current.isEmpty ∧ max_chunk_chars < (candidate.length : ℤ) then
      let part := pyStrip current
      (part, current_start, current_start + part.length) ::
        sentPackGo max_chunk_chars rest sentence cursor (cursor + sentence.length + 1)
    else sentPackGo max_chunk_chars rest candidate current_start (cursor + sentence.length + 1)

/-- The tiny-trailing-part merge at the end of `_split_long_segment`. -/
def mergeTail (min_chunk_chars : ℤ) (out : List (Str × ℕ × ℕ)) : List (Str × ℕ × ℕ) :=
  match out.reverse with
  | tail :: prev :: rl =>
    if (tail.1.length : ℤ) < min_chunk_chars then
      ((pyStrip (prev.1 ++ '\n' :: tail.1), prev.2.1, tail.2.2) :: rl).reverse
    else out
  | _ => out

/-- `_split_long_segment(text, start_char, max_chunk_chars, min_chunk_chars)`
from `chunking.py`, producing `(text, start, end)` parts. -/
def _split_long_segment (text : Str) (start_char : ℕ)
    (max_chunk_chars min_chunk_chars : ℤ) : List (Str × ℕ × ℕ) :=
  let clean := pyStrip text
  if clean.isEmpty then []
  else if (clean.length : ℤ) ≤ max_chunk_chars then
    [(clean, start_char, start_char + clean.length)]
  else
    let pieces := sentencePieces clean
    if pieces.length ≤ 1 then
      wordWrapGo max_chunk_chars (pySplitWs clean) [] start_char
    else
      mergeTail min_chunk_chars (sentPackGo max_chunk_chars pieces [] start_char start_char)

/-- `text.find(" ")`-style search: the first index `≥ i` at which `sub`
occurs in the scanned suffix. -/
def findFromAux (sub : Str) : Str → ℕ → Option ℕ
  | [], i => if sub.isEmpty then some i else none
  | c :: t, i => if sub.isPrefixOf (c :: t) then some i else findFromAux sub t (i + 1)

/-- Python's `s.find(sub, start)`: the least index `≥ start` where `sub`
occurs, else `-1`. -/
def pyFind (s sub : Str) (start : ℕ) : ℤ :=
  match findFromAux sub (s.drop start) start with
  | some i => (i : ℤ)
  | none => -1

/-- `_tail_overlap_chars(text, overlap_chars)` from `chunking.py`. -/
def _tail_overlap_chars (text : Str) (overlap_chars : ℤ) : Str :=
  if overlap_chars ≤ 0 ∨ text.isEmpty then []
  else
    let tail := text.drop (text.length - overlap_chars.toNat)
    let first_space := pyFind tail [' '] 0
    if 0 < first_space ∧ first_space < (tail.length : ℤ) - 1 then
      pyStrip (tail.drop (first_space.toNat + 1))
    else pyStrip tail

/-- `_tail_overlap_sentences(text, overlap_sentences, overlap_chars)` from
`chunking.py`. -/
def _tail_overlap_sentences (text : Str) (overlap_sentences overlap_chars : ℤ) : Str :=
  if text.isEmpty then []
  else if overlap_chars ≤ 0 then []
  else
    let sentence_count : ℤ := max 0 overlap_sentences
    if sentence_count ≤ 0 then _tail_overlap_chars text overlap_chars
    else
      let sentences := sentencePieces text
      if sentences.isEmpty then _tail_overlap_chars text overlap_chars
      else
        let overlap := pyStrip (joinSep [' ']
          (sentences.drop (sentences.length - sentence_count.toNat)))
        let overlap := if 0 < overlap_chars ∧ overlap_chars < (overlap.length : ℤ) then
          _tail_overlap_chars overlap overlap_chars else overlap
        pyStrip overlap

/-- `MD_HEADING_RE = ^(#{1,6})\s+(.+?)\s*$` applied to a line, returning
`(level, stripped title)`: the regex is deterministic on its input (more than
six `#`s, or no whitespace after them, or an empty remainder never match, as
exhaustive backtracking shows). -/
def mdHeading (line : Str) : Option (ℕ × Str) :=
  let hashes := line.takeWhile (fun c => c == '#')
  if hashes.isEmpty ∨ 6 < hashes.length then none
  else
    let rest := line.drop hashes.length
    let sp := rest.takeWhile pyIsSpace
    let title := rest.drop sp.length
    if sp.isEmpty ∨ title.isEmpty then none
    else some (hashes.length, pyStrip title)

/-- The maximal run of `(?:\.\d+)` groups: count and remainder, with
structural fuel. -/
def dotGroupsGo : ℕ → Str → ℕ → ℕ × Str
  | fuel + 1, '.' :: c :: rest, g =>
    if isDigitChar c then
      dotGroupsGo fuel ((c :: rest).dropWhile isDigitChar) (g + 1)
    else (g, '.' :: c :: rest)
  | _, s, g => (g, s)

/-- `NUMBERED_HEADING_RE = ^(\d+(?:\.\d+){0,5})[\).]?\s+(.+?)\s*$` applied to
a line. More than five dot-groups can never match (every backtrack leaves the
remainder starting with `.digit`, on which `[\).]?\s+` fails), so the greedy
scan below is the regex's unique match. -/
def numberedHeading (line : Str) : Option (ℕ × Str) :=
  let digits := line.takeWhile isDigitChar
  if digits.isEmpty then none
  else
    let rest0 := line.drop digits.length
    let gr := dotGroupsGo rest0.length rest0 0
    if 5 < gr.1 then none
    else
      let rest2 := match gr.2 with
        | ')' :: t => t
        | '.' :: t => t
        | s => s
      let sp := rest2.takeWhile pyIsSpace
      let title := rest2.drop sp.length
      if sp.isEmpty ∨ title.isEmpty then none
      else some (gr.1 + 1, pyStrip title)

/-- `_heading_level_and_title(line)` from `chunking.py` (on the stripped
lines it receives, a matched title is never empty, so the `if title:` guards
always pass on a match). -/
def _heading_level_and_title (line : Str) : Option (ℕ × Str) :=
  match mdHeading line with
  | some r => some r
  | none => numberedHeading line

/-- Python's `str.splitlines(keepends=True)` scanner. -/
def isLineBreakChar (c : Char) : Bool :=
  c == '\n' || c == '\r' || c == '\x0b' || c == '\x0c' || c == '\x1c' || c == '\x1d' ||
    c == '\x1e' || c == '\x85' || c == ' ' || c == ' '

def splitLinesKeepAux : Str → Str → List Str
  | [], acc => if acc.isEmpty then [] else [acc.reverse]
  | '\r' :: '\n' :: cs, acc => (acc.reverse ++ ['\r', '\n']) :: splitLinesKeepAux cs []
  | c :: cs, acc =>
    if isLineBreakChar c then (acc.reverse ++ [c]) :: splitLinesKeepAux cs []
    else splitLinesKeepAux cs (c :: acc)

/-- `source_text.splitlines(keepends=True)`. -/
def splitlines_keepends (s : Str) : List Str := splitLinesKeepAux s []

/-- `heading_stack[level] = title` with Python-dict semantics. -/
def stackSet : List (ℕ × Str) → ℕ → Str → List (ℕ × Str)
  | [], k, v => [(k, v)]
  | (k0, v0) :: rest, k, v =>
    if k0 = k then (k0, v) :: rest else (k0, v0) :: stackSet rest k v

/-- `" > ".join(heading_stack[level] for level in sorted(heading_stack))`. -/
def section_path (stack : List (ℕ × Str)) : Str :=
  if stack.isEmpty then []
  else joinSep ((" > ").toList)
    (((stack.map Prod.fst).foldl (fun l i => Citations.insertSortedNat i l) []).map
      (fun level => ((stack.lookup level).getD [])))

/-- The mutable state of `_paragraph_segments_with_sections`. -/
structure ParaState where
  heading_stack : List (ℕ × Str)
  buffer : List Str
  search_cursor : ℕ
  out : List (Str × ℕ × ℕ × Str)

/-- `flush_buffer()` from `_paragraph_segments_with_sections`. -/
def paraFlush (source_text : Str) (st : ParaState) : ParaState :=
  let raw := st.buffer.flatten
  let body := pyStrip raw
  if body.isEmpty then { st with buffer := [] }
  else
    let idx0 := pyFind source_text body st.search_cursor
    let idx : ℕ := if idx0 < 0 then st.search_cursor else idx0.toNat
    let e := idx + body.length
    { heading_stack := st.heading_stack, buffer := [], search_cursor := e,
      out := st.out ++ [(body, idx, e, section_path st.heading_stack)] }

/-- The line loop of `_paragraph_segments_with_sections`. -/
def paraGo (source_text : Str) : List Str → ParaState → ParaState
  | [], st => paraFlush source_text st
  | line :: rest, st =>
    let stripped := pyStrip line
    match _heading_level_and_title stripped with
    | some lt =>
      let st := paraFlush source_text st
      let stack := stackSet st.heading_stack lt.1 lt.2
      let stack := stack.filter (fun kv => decide (kv.1 ≤ lt.1))
      paraGo source_text rest { st with heading_stack := stack }
    | none =>
      let st := { st with buffer := st.buffer ++ [line] }
      if stripped.isEmpty then paraGo source_text rest (paraFlush source_text st)
      else paraGo source_text rest st

/-- `_paragraph_segments_with_sections(source_text)` from `chunking.py`:
`(body, start, end, section_path)` tuples. -/
def _paragraph_segments_with_sections (source_text : Str) : List (Str × ℕ × ℕ × Str) :=
  (paraGo source_text (splitlines_keepends source_text)
    { heading_stack := [], buffer := [], search_cursor := 0, out := [] }).out

/-- Python `sep.split` by a literal separator (non-overlapping, from the
left), with structural fuel. -/
def splitSepGo (sep : Str) : ℕ → Str → Str → List Str
  | 0, s, acc => [acc.reverse ++ s]
  | _ + 1, [], acc => [acc.reverse]
  | fuel + 1, c :: rest, acc =>
    if sep.isPrefixOf (c :: rest) then
      acc.reverse :: splitSepGo sep fuel ((c :: rest).drop sep.length) []
    else splitSepGo sep fuel rest (c :: acc)

/-- Python's `s.split(sep)` for a non-empty literal separator. -/
def pySplitSep (sep s : Str) : List Str :=
  if sep.isEmpty then [s] else splitSepGo sep (s.length + 1) s []

/-- The `unique_paths` accumulation inside `emit_chunk`. -/
def uniquePathsGo : List Str → List Str → List Str
  | [], acc => acc
  | p :: rest, acc =>
    let normalized := pyStrip p
    if normalized.isEmpty ∨ normalized ∈ acc then uniquePathsGo rest acc
    else uniquePathsGo rest (acc ++ [normalized])

/-- The mutable packing state of `chunk_text`. -/
structure PackState where
  chunks : List Chunk
  current_text : Str
  current_start : ℕ
  current_end : ℕ
  paragraph_count : ℕ
  section_paths : List Str

/-- `emit_chunk()` from `chunk_text`. -/
def emit_chunk (meta : List (Str × MetaVal)) (overlap_sentences overlap_chars : ℤ)
    (st : PackState) : PackState :=
  let body := pyStrip st.current_text
  if body.isEmpty then st
  else
    let unique_paths := uniquePathsGo st.section_paths []
    let chunk_meta := Retr.alSet (Retr.alSet meta (("paragraph_count").toList)
      (MetaVal.n st.paragraph_count)) (("char_length").toList) (MetaVal.n body.length)
    let chunk_meta := if ¬unique_paths.isEmpty then
        let last := unique_paths.getLastD []
        Retr.alSet (Retr.alSet (Retr.alSet chunk_meta (("section_path").toList) (MetaVal.s last))
          (("section_paths").toList) (MetaVal.ls unique_paths)) (("section_title").toList)
          (MetaVal.s ((pySplitSep ((" > ").toList) last).getLastD []))
      else chunk_meta
    let overlap := _tail_overlap_sentences body overlap_sentences overlap_chars
    let chunk : Chunk :=
      { text := body, metadata := chunk_meta,
        start_char := st.current_start, end_char := st.current_end }
    { chunks := st.chunks ++ [chunk]
      current_text := overlap
      current_start := if ¬overlap.isEmpty then st.current_end - overlap.length
        else st.current_end
      current_end := st.current_end
      paragraph_count := 0
      section_paths := if ¬overlap.isEmpty ∧ ¬unique_paths.isEmpty then
        unique_paths.drop (unique_paths.length - 1) else [] }

/-- The `section_paths` append step shared by both branches of the packing
loop: `if seg_section: if not section_paths or section_paths[-1] != seg_section:
append`. -/
def appendSection (paths : List Str) (seg_section : Str) : List Str :=
  if ¬seg_section.isEmpty ∧ (paths.isEmpty ∨ ¬paths.getLast? = some seg_section) then
    paths ++ [seg_section]
  else paths

/-- The segment packing loop of `chunk_text`; returning at `[]` performs the
trailing `emit_chunk()`. -/
def packGo (meta : List (Str × MetaVal))
    (max_chunk_chars overlap_sentences overlap_chars min_chunk_chars : ℤ) :
    List (Str × ℕ × ℕ × Str) → PackState → PackState
  | [], st => emit_chunk meta overlap_sentences overlap_chars st
  | seg :: rest, st =>
    if st.current_text.isEmpty then
      packGo meta max_chunk_chars overlap_sentences overlap_chars min_chunk_chars rest
        { st with
          current_text := seg.1, current_start := seg.2.1, current_end := seg.2.2.1,
          paragraph_count := 1,
          section_paths := if ¬seg.2.2.2.isEmpty then [seg.2.2.2] else st.section_paths }
    else
      let candidate := pyStrip (st.current_text ++ ("\n\n").toList ++ seg.1)
      if max_chunk_chars < (candidate.length : ℤ)
          ∧ min_chunk_chars ≤ (st.current_text.length : ℤ) then
        let st2 := emit_chunk meta overlap_sentences overlap_chars st
        let candidate2 := if ¬st2.current_text.isEmpty then
            pyStrip (st2.current_text ++ ("\n\n").toList ++ seg.1)
          else seg.1
        packGo meta max_chunk_chars overlap_sentences overlap_chars min_chunk_chars rest
          { st2 with
            current_text := candidate2,
            current_end := max st2.current_end seg.2.2.1,
            paragraph_count := st2.paragraph_count + 1,
            section_paths := appendSection st2.section_paths seg.2.2.2 }
      else
        packGo meta max_chunk_chars overlap_sentences overlap_chars min_chunk_chars rest
          { st with
            current_text := candidate,
            current_end := max st.current_end seg.2.2.1,
            paragraph_count := st.paragraph_count + 1,
            section_paths := appendSection st.section_paths seg.2.2.2 }

/-- The normalization key of the dedupe pass:
`re.sub(r"\s+", " ", text).strip().lower()` (collapsing whitespace runs to
single spaces and stripping equals joining the whitespace-split words). -/
def _dedupe_key (s : Str) : Str := lowerStr (joinSep [' '] (pySplitWs s))

/-- The dedupe loop of `chunk_text` (`seen` is a set: only membership is
used). -/
def dedupeChunks : List Chunk → List Str → List Chunk
  | [], _ => []
  | c :: rest, seen =>
    let normalized := _dedupe_key c.text
    if normalized.isEmpty ∨ normalized ∈ seen then dedupeChunks rest seen
    else c :: dedupeChunks rest (normalized :: seen)

/-- The final `chunk_index`/`chunk_count` stamping loop. -/
def stampGo (total : ℕ) : ℕ → List Chunk → List Chunk
  | _, [] => []
  | i, c :: rest =>
    { c with metadata := Retr.alSet (Retr.alSet c.metadata (("chunk_index").toList)
        (MetaVal.n i)) (("chunk_count").toList) (MetaVal.n total) } :: stampGo total (i + 1) rest

/-- `chunk_text(text, max_chunk_chars, overlap_chars, overlap_sentences,
min_chunk_chars, metadata_base)` from `chunking.py`. -/
def chunk_text (text : Str) (max_chunk_chars overlap_chars overlap_sentences
    min_chunk_chars : ℤ) (metadata_base : List (Str × MetaVal)) : List Chunk :=
  let source_text := text
  let meta := metadata_base
  let paragraphs := _paragraph_segments_with_sections source_text
  if paragraphs.isEmpty then []
  else
    let segments := paragraphs.flatMap (fun p =>
      (_split_long_segment p.1 p.2.1 max_chunk_chars min_chunk_chars).map
        (fun q => (q.1, q.2.1, q.2.2, p.2.2.2)))
    let st := packGo meta max_chunk_chars overlap_sentences overlap_chars min_chunk_chars
      segments
      { chunks := [], current_text := [], current_start := 0, current_end := 0,
        paragraph_count := 0, section_paths := [] }
    let chunks := dedupeChunks st.chunks []
    stampGo chunks.length 0 chunks

end Chunking
theorem pyStrip_length_le (s : Str) : (pyStrip s).length ≤ s.length := by
  simp only [pyStrip, List.length_reverse]
  refine le_trans ((List.dropWhile_suffix pyIsSpace).sublist.length_le) ?_
  rw [List.length_reverse]
  exact (List.dropWhile_suffix pyIsSpace).sublist.length_le

theorem mem_dropWhile_of_not_mem {α : Type} {p : α → Bool} {c : α} (hc : p c = false)
    {l : List α} (hm : c ∈ l) : c ∈ l.dropWhile p := by
  have hsplit : c ∈ l.takeWhile p ++ l.dropWhile p := by
    rw [List.takeWhile_append_dropWhile]
    exact hm
  rcases List.mem_append.mp hsplit with h | h
  · exact absurd (List.mem_takeWhile_imp h) (by simp [hc])
  · exact h

theorem mem_pyStrip_of_not_space {c : Char} (hc : pyIsSpace c = false) {s : Str}
    (hm : c ∈ s) : c ∈ pyStrip s := by
  unfold pyStrip
  refine List.mem_reverse.mpr (mem_dropWhile_of_not_mem hc (List.mem_reverse.mpr ?_))
  exact mem_dropWhile_of_not_mem hc hm

theorem pyStrip_append_of_strip_nil (pre s : Str) (h : pyStrip pre = []) :
    pyStrip (pre ++ s) = pyStrip s := by
  have hall : ∀ c ∈ pre, pyIsSpace c = true := by
    intro c hc
    by_contra hcf
    have hmem := mem_pyStrip_of_not_space (eq_false_of_ne_true hcf) hc
    rw [h] at hmem
    simp at hmem
  have hdrop : pre.dropWhile pyIsSpace = [] := List.dropWhile_eq_nil_iff.mpr hall
  unfold pyStrip
  rw [List.dropWhile_append, hdrop]
  simp

namespace Chunking

theorem tail_overlap_sentences_of_nonpos (text : Str) (os : ℤ) {oc : ℤ} (hoc : oc ≤ 0) :
    _tail_overlap_sentences text os oc = [] := by
  unfold _tail_overlap_sentences
  by_cases h1 : text.isEmpty = true
  · rw [if_pos h1]
  · rw [if_neg h1, if_pos hoc]

theorem emit_chunk_spec (meta : List (Str × MetaVal)) (os : ℤ) {oc : ℤ} (hoc : oc ≤ 0)
    (st : PackState) :
    ((emit_chunk meta os oc st).chunks.map Chunk.text = st.chunks.map Chunk.text
        ∧ (emit_chunk meta os oc st).current_text = st.current_text
        ∧ pyStrip st.current_text = [])
    ∨ ((emit_chunk meta os oc st).chunks.map Chunk.text
          = st.chunks.map Chunk.text ++ [pyStrip st.current_text]
        ∧ (emit_chunk meta os oc st).current_text = []) := by
  simp only [emit_chunk]
  by_cases hb : (pyStrip st.current_text).isEmpty = true
  · rw [if_pos hb]
    exact Or.inl ⟨rfl, rfl, List.isEmpty_iff.mp hb⟩
  · rw [if_neg hb]
    rw [tail_overlap_sentences_of_nonpos _ _ hoc]
    refine Or.inr ⟨?_, rfl⟩
    rw [List.map_append]
    rfl

theorem texts_bound_of_map {M : ℤ} {l : List Chunk} {ts : List Str}
    (h : l.map Chunk.text = ts) (hts : ∀ t ∈ ts, ((t.length : ℤ) ≤ M)) :
    ∀ c ∈ l, ((c.text.length : ℤ) ≤ M) := by
  intro c hc
  exact hts _ (h ▸ List.mem_map_of_mem Chunk.text hc)

theorem packGo_bound (meta : List (Str × MetaVal)) {M os oc mc : ℤ}
    (hoc : oc ≤ 0) (hmc : mc ≤ 0) :
    ∀ (segs : List (Str × ℕ × ℕ × Str)) (st : PackState),
      (∀ s ∈ segs, ((s.1.length : ℤ) ≤ M)) →
      ((st.current_text.length : ℤ) ≤ M) →
      (∀ c ∈ st.chunks, ((c.text.length : ℤ) ≤ M)) →
      ∀ c ∈ (packGo meta M os oc mc segs st).chunks, ((c.text.length : ℤ) ≤ M) := by
  intro segs
  induction segs with
  | nil =>
    intro st hsegs hcur hch c hc
    simp only [packGo] at hc
    rcases emit_chunk_spec meta os hoc st with ⟨he, _, _⟩ | ⟨he, _⟩
    · exact texts_bound_of_map he (fun t ht => by
        obtain ⟨c', hc', hct⟩ := List.mem_map.mp ht
        exact hct ▸ hch c' hc') c hc
    · refine texts_bound_of_map he (fun t ht => ?_) c hc
      rcases List.mem_append.mp ht with h | h
      · obtain ⟨c', hc', hct⟩ := List.mem_map.mp h
        exact hct ▸ hch c' hc'
      · have ht1 : t = pyStrip st.current_text := by simpa using h
        rw [ht1]
        have := pyStrip_length_le st.current_text
        omega
  | cons seg rest ih =>
    intro st hsegs hcur hch
    have hseg1 : ((seg.1.length : ℤ) ≤ M) := hsegs seg (by simp)
    have hsegs' : ∀ s ∈ rest, ((s.1.length : ℤ) ≤ M) := by
      intro s hs
      exact (hsegs s (List.mem_cons_of_mem seg hs))
    simp only [packGo]
    by_cases h1 : st.current_text.isEmpty = true
    · rw [if_pos h1]
      exact ih _ hsegs' hseg1 hch
    · rw [if_neg h1]
      by_cases h2 : M < ((pyStrip (st.current_text ++ ("\n\n").toList ++ seg.1)).length : ℤ)
          ∧ mc ≤ (st.current_text.length : ℤ)
      · rw [if_pos h2]
        rcases emit_chunk_spec meta os hoc st with ⟨he, he2, he3⟩ | ⟨he, he2⟩
        · -- strip-empty body: nothing was emitted, the current text is whitespace
          have hch' : ∀ c ∈ (emit_chunk meta os oc st).chunks, ((c.text.length : ℤ) ≤ M) :=
            texts_bound_of_map he (fun t ht => by
              obtain ⟨c', hc', hct⟩ := List.mem_map.mp ht
              exact hct ▸ hch c' hc')
          have hcur' : ¬(emit_chunk meta os oc st).current_text.isEmpty = true := by
            rw [he2]
            exact h1
          rw [if_pos hcur', he2]
          have hstrip : pyStrip (st.current_text ++ ("\n\n").toList ++ seg.1)
              = pyStrip seg.1 := by
            rw [List.append_assoc]
            rw [pyStrip_append_of_strip_nil _ _ he3]
            rw [pyStrip_append_of_strip_nil _ _ (by rfl)]
          refine ih _ hsegs' ?_ hch'
          dsimp only
          rw [hstrip]
          have := pyStrip_length_le seg.1
          omega
        · have hch' : ∀ c ∈ (emit_chunk meta os oc st).chunks, ((c.text.length : ℤ) ≤ M) := by
            refine texts_bound_of_map he (fun t ht => ?_)
            rcases List.mem_append.mp ht with h | h
            · obtain ⟨c', hc', hct⟩ := List.mem_map.mp h
              exact hct ▸ hch c' hc'
            · have ht1 : t = pyStrip st.current_text := by simpa using h
              rw [ht1]
              have := pyStrip_length_le st.current_text
              omega
          have hcur' : ¬¬(emit_chunk meta os oc st).current_text.isEmpty = true := by
            rw [he2]
            simp
          rw [if_neg hcur']
          exact ih _ hsegs' hseg1 hch'
      · rw [if_neg h2]
        have hcand : ((pyStrip (st.current_text ++ ("\n\n").toList ++ seg.1)).length : ℤ) ≤ M := by
          by_contra hcf
          exact h2 ⟨by omega, by omega⟩
        exact ih _ hsegs' hcand hch

theorem mergeTail_of_nonpos {mc : ℤ} (hmc : mc ≤ 0) (out : List (Str × ℕ × ℕ)) :
    mergeTail mc out = out := by
  unfold mergeTail
  cases hr : out.reverse with
  | nil => rfl
  | cons t r2 =>
    cases r2 with
    | nil => rfl
    | cons pr rl =>
      dsimp only
      rw [if_neg (by omega)]

theorem wordWrapGo_bound {M : ℤ} :
    ∀ (words : List Str) (buf : Str) (cursor : ℕ),
      (∀ w ∈ words, ((w.length : ℤ) ≤ M)) → ((buf.length : ℤ) ≤ M) →
      ∀ p ∈ wordWrapGo M words buf cursor, ((p.1.length : ℤ) ≤ M) := by
  intro words
  induction words with
  | nil =>
    intro buf cursor hw hb p hp
    simp only [wordWrapGo] at hp
    split_ifs at hp with h
    · simp at hp
    · have : p = (buf, cursor, cursor + buf.length) := by simpa using hp
      rw [this]
      exact hb
  | cons word rest ih =>
    intro buf cursor hw hb p hp
    have hw1 : ((word.length : ℤ) ≤ M) := hw word (by simp)
    have hw' : ∀ w ∈ rest, ((w.length : ℤ) ≤ M) :=
      fun w h => hw w (List.mem_cons_of_mem word h)
    simp only [wordWrapGo] at hp
    split_ifs at hp with h
    · rcases List.mem_cons.mp hp with h0 | h0
      · rw [h0]
        have := pyStrip_length_le buf
        simp only
        omega
      · exact ih word _ hw' hw1 p h0
    · refine ih _ _ hw' ?_ p hp
      by_cases hbe : buf.isEmpty = true
      · have hb0 : buf = [] := List.isEmpty_iff.mp hbe
        rw [hb0]
        have hsp : pyStrip ([' '] ++ word) = pyStrip word :=
          pyStrip_append_of_strip_nil [' '] word (by rfl)
        rw [show ([] : Str) ++ ' ' :: word = [' '] ++ word from rfl, hsp]
        have := pyStrip_length_le word
        omega
      · have hcand := not_and.mp h (by simpa using hbe)
        omega

theorem sentPackGo_bound {M : ℤ} :
    ∀ (pieces : List Str) (current : Str) (cs cursor : ℕ),
      (∀ u ∈ pieces, ((u.length : ℤ) ≤ M)) → ((current.length : ℤ) ≤ M) →
      ∀ p ∈ sentPackGo M pieces current cs cursor, ((p.1.length : ℤ) ≤ M) := by
  intro pieces
  induction pieces with
  | nil =>
    intro current cs cursor hu hc p hp
    simp only [sentPackGo] at hp
    split_ifs at hp with h
    · simp at hp
    · have : p = (pyStrip current, cs, cs + (pyStrip current).length) := by simpa using hp
      rw [this]
      have := pyStrip_length_le current
      dsimp only
      omega
  | cons sentence rest ih =>
    intro current cs cursor hu hc p hp
    have hu1 : ((sentence.length : ℤ) ≤ M) := hu sentence (by simp)
    have hu' : ∀ u ∈ rest, ((u.length : ℤ) ≤ M) :=
      fun u h => hu u (List.mem_cons_of_mem sentence h)
    simp only [sentPackGo] at hp
    by_cases hce : current.isEmpty = true
    · rw [if_pos hce, if_neg (fun hcon => hcon.1 hce)] at hp
      exact ih _ _ _ hu' hu1 p hp
    · rw [if_neg hce] at hp
      by_cases hbig : M < ((pyStrip (current ++ ' ' :: sentence)).length : ℤ)
      · rw [if_pos ⟨hce, hbig⟩] at hp
        rcases List.mem_cons.mp hp with h0 | h0
        · rw [h0]
          have := pyStrip_length_le current
          dsimp only
          omega
        · exact ih sentence _ _ hu' hu1 p h0
      · rw [if_neg (fun hcon => hbig hcon.2)] at hp
        refine ih _ _ _ hu' ?_ p hp
        omega

end Chunking
namespace Chunking

theorem split_long_segment_bound {M mc : ℤ} (hM : 0 ≤ M) (hmc : mc ≤ 0) (text : Str) (start : ℕ)
    (hsent : ∀ u ∈ sentencePieces (pyStrip text), ((u.length : ℤ) ≤ M))
    (hword : ∀ w ∈ pySplitWs (pyStrip text), ((w.length : ℤ) ≤ M)) :
    ∀ p ∈ _split_long_segment text start M mc, ((p.1.length : ℤ) ≤ M) := by
  intro p hp
  simp only [_split_long_segment] at hp
  by_cases h1 : (pyStrip text).isEmpty = true
  · rw [if_pos h1] at hp
    simp at hp
  · rw [if_neg h1] at hp
    by_cases h2 : ((pyStrip text).length : ℤ) ≤ M
    · rw [if_pos h2] at hp
      have : p = (pyStrip text, start, start + (pyStrip text).length) := by simpa using hp
      rw [this]
      exact h2
    · rw [if_neg h2] at hp
      by_cases h3 : (sentencePieces (pyStrip text)).length ≤ 1
      · rw [if_pos h3] at hp
        exact wordWrapGo_bound (pySplitWs (pyStrip text)) [] start hword
          (by simp; omega) p hp
      · rw [if_neg h3] at hp
        rw [mergeTail_of_nonpos hmc] at hp
        exact sentPackGo_bound (sentencePieces (pyStrip text)) [] start start hsent
          (by simp; omega) p hp

theorem mem_dedupeChunks : ∀ (l : List Chunk) (seen : List Str) (c : Chunk),
    c ∈ dedupeChunks l seen → c ∈ l := by
  intro l
  induction l with
  | nil => intro seen c hc; simp [dedupeChunks] at hc
  | cons x rest ih =>
    intro seen c hc
    simp only [dedupeChunks] at hc
    split_ifs at hc with h
    · exact List.mem_cons_of_mem x (ih _ c hc)
    · rcases List.mem_cons.mp hc with h0 | h0
      · exact h0 ▸ List.mem_cons_self x rest
      · exact List.mem_cons_of_mem x (ih _ c h0)

theorem stampGo_texts (total : ℕ) : ∀ (i : ℕ) (l : List Chunk),
    (stampGo total i l).map Chunk.text = l.map Chunk.text := by
  intro i l
  induction l generalizing i with
  | nil => rfl
  | cons c rest ih =>
    simp only [stampGo, List.map_cons]
    rw [ih]

/-- C2 (amended): when `min_chunk_chars ≤ 0` and `overlap_chars ≤ 0`, and when
every sentence piece and every whitespace-delimited word of every paragraph
segment of the text is at most `max_chunk_chars = M ≥ 0` characters long (no
atomic unit exceeds `M`), every chunk emitted by `chunk_text` has text length
`≤ M`. With a positive `min_chunk_chars`, the packing guard
`len(current_text) >= min_chunk_chars` can refuse to close a full chunk and
grow it beyond `M` even though no atomic unit exceeds `M`; a positive
`overlap_chars` prepends the previous chunk's tail and can likewise push a
chunk beyond `M`. -/
theorem chunk_text_bound (text : Str) (max_chunk_chars overlap_chars overlap_sentences
    min_chunk_chars : ℤ) (metadata_base : List (Str × MetaVal))
    (hM : 0 ≤ max_chunk_chars) (hmc : min_chunk_chars ≤ 0) (hoc : overlap_chars ≤ 0)
    (hatomic : ∀ p ∈ _paragraph_segments_with_sections text,
      (∀ u ∈ sentencePieces (pyStrip p.1), ((u.length : ℤ) ≤ max_chunk_chars)) ∧
      (∀ w ∈ pySplitWs (pyStrip p.1), ((w.length : ℤ) ≤ max_chunk_chars))) :
    ∀ c ∈ chunk_text text max_chunk_chars overlap_chars overlap_sentences min_chunk_chars
        metadata_base, ((c.text.length : ℤ) ≤ max_chunk_chars) := by
  intro c hc
  simp only [chunk_text] at hc
  by_cases hp : (_paragraph_segments_with_sections text).isEmpty = true
  · rw [if_pos hp] at hc
    simp at hc
  · rw [if_neg hp] at hc
    have hsegs : ∀ s ∈ (_paragraph_segments_with_sections text).flatMap (fun p =>
        (_split_long_segment p.1 p.2.1 max_chunk_chars min_chunk_chars).map
          (fun q => (q.1, q.2.1, q.2.2, p.2.2.2))),
        ((s.1.length : ℤ) ≤ max_chunk_chars) := by
      intro s hs
      obtain ⟨p, hpmem, hsin⟩ := List.mem_flatMap.mp hs
      obtain ⟨q, hq, hqs⟩ := List.mem_map.mp hsin
      have hb := split_long_segment_bound hM hmc p.1 p.2.1 (hatomic p hpmem).1
        (hatomic p hpmem).2 q hq
      rw [← hqs]
      exact hb
    have hpack := @packGo_bound metadata_base max_chunk_chars overlap_sentences
      overlap_chars min_chunk_chars hoc hmc
      ((_paragraph_segments_with_sections text).flatMap (fun p =>
        (_split_long_segment p.1 p.2.1 max_chunk_chars min_chunk_chars).map
          (fun q => (q.1, q.2.1, q.2.2, p.2.2.2))))
      { chunks := [], current_text := [], current_start := 0, current_end := 0,
        paragraph_count := 0, section_paths := [] }
      hsegs (by simpa using hM) (by simp)
    have htext : c.text ∈ (dedupeChunks (packGo metadata_base max_chunk_chars
        overlap_sentences overlap_chars min_chunk_chars
        ((_paragraph_segments_with_sections text).flatMap (fun p =>
          (_split_long_segment p.1 p.2.1 max_chunk_chars min_chunk_chars).map
            (fun q => (q.1, q.2.1, q.2.2, p.2.2.2))))
        { chunks := [], current_text := [], current_start := 0, current_end := 0,
          paragraph_count := 0, section_paths := [] }).chunks []).map Chunk.text := by
      rw [← stampGo_texts _ 0]
      exact List.mem_map_of_mem Chunk.text hc
    obtain ⟨c', hc', hct⟩ := List.mem_map.mp htext
    rw [← hct]
    exact hpack c' (mem_dedupeChunks _ _ c' hc')

end Chunking
namespace Chunking

/-- Witness text for the bound: two short sentences in one paragraph. -/
def witText : Str := ("Alpha beta gamma. Delta words here.").toList

/-- `"aaaa aaaa\n\nbbbb bbbb bbbb"`: two paragraphs of 9 and 14 characters —
every sentence and word is at most 14 characters long. -/
def cexText : Str := ("aaaa aaaa\n\nbbbb bbbb bbbb").toList

set_option maxRecDepth 100000 in
theorem chunk_text_bound_witness :
    ((0 : ℤ) ≤ 40 ∧ (0 : ℤ) ≤ 0 ∧ (0 : ℤ) ≤ 0
      ∧ (∀ p ∈ _paragraph_segments_with_sections witText,
          (∀ u ∈ sentencePieces (pyStrip p.1), ((u.length : ℤ) ≤ 40)) ∧
          (∀ w ∈ pySplitWs (pyStrip p.1), ((w.length : ℤ) ≤ 40))))
    ∧ (∀ c ∈ chunk_text witText 40 0 0 0 [], ((c.text.length : ℤ) ≤ 40)) :=
  ⟨⟨by norm_num, by norm_num, by norm_num, by decide⟩,
    chunk_text_bound witText 40 0 0 0 [] (by norm_num) (by norm_num) (by norm_num) (by decide)⟩

set_option maxRecDepth 100000 in
/-- C2 counterexample: on `"aaaa aaaa\n\nbbbb bbbb bbbb"` with
`max_chunk_chars = 20` and the default `overlap_chars = 80`,
`overlap_sentences = 1`, `min_chunk_chars = 180`, every atomic unit (word or
sentence) is at most 14 characters, yet `chunk_text` emits a single 25-character
chunk: the packing guard `len(current_text) >= min_chunk_chars` refuses to
close the 9-character chunk, so the two paragraphs are glued past the limit. -/
theorem chunk_text_claim_cex :
    (∀ p ∈ _paragraph_segments_with_sections cexText,
        (∀ u ∈ sentencePieces (pyStrip p.1), ((u.length : ℤ) ≤ 20)) ∧
        (∀ w ∈ pySplitWs (pyStrip p.1), ((w.length : ℤ) ≤ 20)))
    ∧ ¬ (∀ c ∈ chunk_text cexText 20 80 1 180 [], ((c.text.length : ℤ) ≤ 20)) := by
  constructor
  · decide
  · decide

end Chunking
